import Mathlib

/-!
Shallow embedding of the librfdict red-black dictionary engine
(`rfdict.c` / `rfdict.h`).

Modelling conventions:

* A C key string is a `List Nat` of its bytes (each `0 < b < 256` in any
  string that can actually occur; the terminating NUL is implicit and is
  not part of the list).
* The C type `char` is modelled as signed (the ABI of the x86-64 Linux
  targets of this library): reading a byte `b ≥ 0x80` through a `char`
  yields the negative value `b - 256`.  The C standard library `strcmp`
  compares bytes as `unsigned char`, so it compares the raw byte values.
* `abort()` (a fatal contract violation) is modelled by `Option`: a
  function that can abort returns `none` exactly when the C code would
  reach an `abort()` call.
* `long` values are modelled as `Int`; the tree engine never does
  arithmetic on them, so no overflow modelling is needed.
-/

/-- A key: the bytes of a C string, without the terminating NUL. -/
abbrev Key := List Nat

/-- Value of a stored byte when read back through a (signed) `char`
lvalue and widened to `int`, as `rfdict_keycmp` does with `c1 = pKey1[i]`. -/
def sgnC (b : Nat) : Int :=
  if b < 128 then (b : Int) else (b : Int) - 256

/-- ASCII constants from rfdict.c. -/
def ASCII_UPPER_A : Int := 0x41

def ASCII_UPPER_Z : Int := 0x5a

def ASCII_LOWER_A : Int := 0x61

def ASCII_LOWER_Z : Int := 0x7a

/-- C `strcmp`, which compares the two NUL-terminated strings byte by
byte as `unsigned char` values.  The result is normalised to -1/0/1
(rfdict.c only ever tests the sign of the result). -/
def c_strcmp : Key → Key → Int
  | [], [] => 0
  | [], _ :: _ => -1
  | _ :: _, [] => 1
  | a :: t1, b :: t2 =>
    if a < b then -1 else if b < a then 1 else c_strcmp t1 t2

/-- The fold applied to `c1` in the case-insensitive loop of
`rfdict_keycmp` (lines 228-230): `(c1 >= 'a') && (c1 <= 'z')`. -/
def foldOp1 (c : Int) : Int :=
  if ASCII_LOWER_A ≤ c ∧ c ≤ ASCII_LOWER_Z then c - (ASCII_LOWER_A - ASCII_UPPER_A) else c

/-- The fold applied to `c2` in the case-insensitive loop of
`rfdict_keycmp` (lines 231-233).  The source condition is
`(c2 >= ASCII_LOWER_A) && (c2 >= ASCII_LOWER_Z)` — note the second
comparison is `>=`, not `<=`; this definition reproduces it exactly. -/
def foldOp2 (c : Int) : Int :=
  if ASCII_LOWER_A ≤ c ∧ ASCII_LOWER_Z ≤ c then c - (ASCII_LOWER_A - ASCII_UPPER_A) else c

/-- The case-insensitive branch of `rfdict_keycmp` (lines 217-257):
scan while both strings have bytes left and the folded bytes agree;
on a fold-level mismatch compare the folded values; if a terminator was
reached, re-fetch and compare the raw (unfolded, signed) bytes. -/
def keycmpLoop : Key → Key → Int
  | [], [] => 0
  | [], b :: _ =>
    if (0 : Int) = sgnC b then 0 else if sgnC b < 0 then 1 else -1
  | a :: _, [] =>
    if sgnC a = 0 then 0 else if sgnC a < 0 then -1 else 1
  | a :: t1, b :: t2 =>
    if foldOp1 (sgnC a) = foldOp2 (sgnC b) then keycmpLoop t1 t2
    else if foldOp2 (sgnC b) < foldOp1 (sgnC a) then 1 else -1

/-- `rfdict_keycmp` (rfdict.c lines 197-261): case-sensitive comparisons
call through to `strcmp`; case-insensitive comparisons use the folding
loop above. -/
def rfdict_keycmp (k1 k2 : Key) (sensitive : Bool) : Int :=
  if sensitive then c_strcmp k1 k2 else keycmpLoop k1 k2

/-- The case fold performed by `rfdict_insert` on the private key copy of
a case-insensitive dictionary (lines 755-761): lowercase ASCII letters
a-z are mapped to A-Z, all other bytes are kept.  (On bytes `b < 256`
the signed-char test of the source is equivalent to this test on the
raw byte.) -/
def foldByte (b : Nat) : Nat :=
  if 0x61 ≤ b ∧ b ≤ 0x7a then b - 0x20 else b

/-- Fold every byte of a key (the loop of lines 756-760). -/
def foldKey (k : Key) : Key := k.map foldByte

/-- The comparator semantics as documented for `rfdict_keycmp` and in
§4.1 of the specification (the dictionary's "configured comparator"):
case-sensitive mode is exact byte-wise comparison, case-insensitive mode
folds lowercase ASCII a-z to A-Z in BOTH operands and compares the
folded strings byte-wise, all other bytes as-is. -/
def rfdict_cmp_spec (sensitive : Bool) (k1 k2 : Key) : Int :=
  if sensitive then c_strcmp k1 k2 else c_strcmp (foldKey k1) (foldKey k2)

/-- A tree node / subtree.  `RFDICT_NODE` (rfdict.c lines 57-133): the
`red` flag, the key bytes, the `long` value and the two child links.
Parent pointers are represented structurally (see `Frame`/`RFPath`). -/
inductive RFNode where
  | nil : RFNode
  | node (red : Bool) (key : Key) (val : Int) (left right : RFNode) : RFNode
deriving DecidableEq, Repr

/-- The `RFDICT` structure (lines 32-50): root pointer and the
case-sensitivity flag fixed at creation. -/
structure RFDict where
  root : RFNode
  sensitive : Bool
deriving DecidableEq, Repr

/-- `rfdict_alloc` (lines 621-638): a fresh empty dictionary. -/
def rfdict_alloc (sensitive : Bool) : RFDict := ⟨RFNode.nil, sensitive⟩

/-- `rfdict_isred` (lines 341-357): a NULL node is not red. -/
def rfdict_isred : RFNode → Bool
  | RFNode.nil => false
  | RFNode.node r _ _ _ _ => r

/-- `rfdict_isblack` (lines 374-390): a NULL node counts as black. -/
def rfdict_isblack (t : RFNode) : Bool := !rfdict_isred t

/-- The descent loop of `rfdict_find` (lines 285-325), recursing on the
subtree in place of the `pCurrent` pointer walk.  Returns the matching
node's key and value, or `none`. -/
def rfdict_find_node (sensitive : Bool) : RFNode → Key → Option (Key × Int)
  | RFNode.nil, _ => none
  | RFNode.node _ k v l r, q =>
    if rfdict_keycmp q k sensitive = 0 then some (k, v)
    else if rfdict_keycmp q k sensitive < 0 then rfdict_find_node sensitive l q
    else rfdict_find_node sensitive r q

/-- `rfdict_find` (lines 285-325). -/
def rfdict_find (d : RFDict) (q : Key) : Option (Key × Int) :=
  rfdict_find_node d.sensitive d.root q

/-- `rfdict_get` (lines 968-990): the found node's value, else the
caller-supplied default. -/
def rfdict_get (d : RFDict) (q : Key) (dvalue : Int) : Int :=
  match rfdict_find d q with
  | some kv => kv.2
  | none => dvalue

/-- Which child slot of its parent a node occupies. -/
inductive Side where
  | left : Side
  | right : Side
deriving DecidableEq, Repr

/-- One step of a parent chain: the data of a parent node together with
the subtree on the side we did not descend into.  A `Frame` plus a
focused subtree reconstitutes the parent node (`Frame.fill`); a list of
frames (innermost first) is the structural counterpart of the `pParent`
pointer chain of rfdict.c. -/
structure Frame where
  side : Side
  red : Bool
  key : Key
  val : Int
  sib : RFNode
deriving DecidableEq, Repr

abbrev RFPath := List Frame

/-- Rebuild the parent node of a focused subtree. -/
def Frame.fill (f : Frame) (t : RFNode) : RFNode :=
  match f.side with
  | Side.left => RFNode.node f.red f.key f.val t f.sib
  | Side.right => RFNode.node f.red f.key f.val f.sib t

/-- Rebuild the whole tree from a focused subtree and its parent chain. -/
def plug : RFPath → RFNode → RFNode
  | [], t => t
  | f :: p, t => plug p (f.fill t)

/-- Color of the focused node's parent, as `rfdict_isred(pNode->pParent)`
computes it (NULL parent is not red). -/
def parentRed : RFPath → Bool
  | [] => false
  | f :: _ => f.red

/-- `rfdict_rol` (lines 411-456), the local restructuring on the rotated
node's subtree.  The node's right child R must exist, otherwise the C
code aborts (`none`): R's left subtree becomes the node's right subtree
and the node becomes R's left child; colors travel with their nodes.
The parent-link / root update performed by lines 436-455 corresponds to
plugging the result back into the unchanged parent chain. -/
def rfdict_rol : RFNode → Option RFNode
  | RFNode.node c k v l (RFNode.node cR kR vR rl rr) =>
    some (RFNode.node cR kR vR (RFNode.node c k v l rl) rr)
  | _ => none

/-- `rfdict_ror` (lines 477-522), mirror image of `rfdict_rol`: the left
child L must exist; L's right subtree becomes the node's left subtree
and the node becomes L's right child. -/
def rfdict_ror : RFNode → Option RFNode
  | RFNode.node c k v (RFNode.node cL kL vL ll lr) r =>
    some (RFNode.node cL kL vL ll (RFNode.node c k v lr r))
  | _ => none

/-- Overwrite the color of the root of a subtree (an assignment to the
`red` field of a node). -/
def repaint (b : Bool) : RFNode → RFNode
  | RFNode.nil => RFNode.nil
  | RFNode.node _ k v l r => RFNode.node b k v l r

/-- Result of the insertion descent loop (lines 775-801). -/
inductive DescentResult where
  | dup : DescentResult
  | attach (path : RFPath) : DescentResult
deriving DecidableEq, Repr

/-- The descent loop of `rfdict_insert` (lines 775-801): compare the
current node's key with the (already folded) new key using `strcmp`;
stop with `dup` on equality; stop at a node missing the branch the new
key belongs on (the returned path's head frame names that empty slot);
otherwise descend.  The `nil` case is never reached from `rfdict_insert`
(the loop is entered only on a non-empty tree and only ever steps into
existing children). -/
def rfdict_descend : RFNode → Key → RFPath → DescentResult
  | RFNode.nil, _, path => DescentResult.attach path
  | RFNode.node r k v l rt, nk, path =>
    let rv := c_strcmp k nk
    if rv = 0 then DescentResult.dup
    else if 0 < rv then
      match l with
      | RFNode.nil => DescentResult.attach (⟨Side.left, r, k, v, rt⟩ :: path)
      | RFNode.node r2 k2 v2 l2 rt2 =>
        rfdict_descend (RFNode.node r2 k2 v2 l2 rt2) nk (⟨Side.left, r, k, v, rt⟩ :: path)
    else
      match rt with
      | RFNode.nil => DescentResult.attach (⟨Side.right, r, k, v, l⟩ :: path)
      | RFNode.node r2 k2 v2 l2 rt2 =>
        rfdict_descend (RFNode.node r2 k2 v2 l2 rt2) nk (⟨Side.right, r, k, v, l⟩ :: path)

/-- The recolored grandparent built by one step of the recoloring loop
(lines 859-869): both children of the grandparent are repainted black
(the parent frame `f1` and the uncle `f2.sib`), and the grandparent
itself takes the color `gred` (red, or black when it is the root). -/
def recolorGrand (f1 f2 : Frame) (gred : Bool) (t : RFNode) : RFNode :=
  match f2.side with
  | Side.left => RFNode.node gred f2.key f2.val
      (Frame.fill { f1 with red := false } t) (repaint false f2.sib)
  | Side.right => RFNode.node gred f2.key f2.val
      (repaint false f2.sib) (Frame.fill { f1 with red := false } t)

/-- The recoloring loop of `rfdict_insert` (lines 855-885, "case A"):
while both children of the focused node's grandparent are red, recolor
them black, recolor the grandparent red (black if it is the root, i.e.
when no outer frames remain), and move the focus up to the grandparent;
stop as soon as the moved focus no longer sits on a red-red violation,
aborting (`none`) if a violation persists with no grandparent.  The
first two arguments are the two innermost frames (parent and
grandparent) of the focus path, the third the remaining outer frames. -/
def caseALoop : Frame → Frame → RFPath → RFNode → Option (RFPath × RFNode)
  | f1, f2, rest, t =>
    if rfdict_isred (match f2.side with | Side.left => f1.fill t | Side.right => f2.sib) &&
       rfdict_isred (match f2.side with | Side.left => f2.sib | Side.right => f1.fill t) then
      match rest with
      | [] => some ([], recolorGrand f1 f2 false t)
      | f3 :: rest2 =>
        if rfdict_isred (recolorGrand f1 f2 true t) && f3.red then
          match rest2 with
          | [] => none
          | f4 :: rest3 => caseALoop f3 f4 rest3 (recolorGrand f1 f2 true t)
        else some (f3 :: rest2, recolorGrand f1 f2 true t)
    else some (f1 :: f2 :: rest, t)

/-- Entry to the recoloring phase (lines 846-887): only act when the
focused node and its parent are both red; the grandparent must then
exist (line 851-853, abort otherwise). -/
def caseA (path : RFPath) (t : RFNode) : Option (RFPath × RFNode) :=
  if rfdict_isred t && parentRed path then
    match path with
    | [] => some ([], t)
    | [_] => none
    | f1 :: f2 :: rest => caseALoop f1 f2 rest t
  else some (path, t)

/-- The rotation phase of `rfdict_insert` (lines 902-959, "case B"): if
the focused node and its parent are still both red, the grandparent must
exist (abort otherwise); if one of the grandparent's children is black
or missing, apply one of the four mirror-symmetric recolor-and-rotate
patterns; otherwise (and when there is no violation) just reassemble the
tree.  Returns the new root of the whole tree. -/
def caseB (path : RFPath) (t : RFNode) : Option RFNode :=
  if rfdict_isred t && parentRed path then
    match path with
    | [] => some t
    | [_] => none
    | f1 :: f2 :: rest =>
      if rfdict_isblack (match f2.side with | Side.left => f1.fill t | Side.right => f2.sib) ||
         rfdict_isblack (match f2.side with | Side.left => f2.sib | Side.right => f1.fill t) then
        match f1.side, f2.side with
        | Side.right, Side.left =>
          match rfdict_rol (Frame.fill f1 (repaint false t)) with
          | none => none
          | some p2 =>
            match rfdict_ror (RFNode.node true f2.key f2.val p2 f2.sib) with
            | none => none
            | some g2 => some (plug rest g2)
        | Side.left, Side.right =>
          match rfdict_ror (Frame.fill f1 (repaint false t)) with
          | none => none
          | some p2 =>
            match rfdict_rol (RFNode.node true f2.key f2.val f2.sib p2) with
            | none => none
            | some g2 => some (plug rest g2)
        | Side.left, Side.left =>
          match rfdict_ror (RFNode.node true f2.key f2.val
              (Frame.fill { f1 with red := false } t) f2.sib) with
          | none => none
          | some g2 => some (plug rest g2)
        | Side.right, Side.right =>
          match rfdict_rol (RFNode.node true f2.key f2.val f2.sib
              (Frame.fill { f1 with red := false } t)) with
          | none => none
          | some g2 => some (plug rest g2)
      else some (plug (f1 :: f2 :: rest) t)
  else some (plug path t)

/-- `RFDICT_MAXKEY` (rfdict.h line 23): maximum key length in bytes, not
including the terminating NUL. -/
def RFDICT_MAXKEY : Nat := 16384

/-- `rf_ctable_ascii` (lines 589-616) for byte input, modelled for an
ASCII build host: the table built by `rf_ctable_prepare` from the
`char_ref` literal is then the identity on the printable US-ASCII range
0x20-0x7E, and every byte outside the table aborts (`none`). -/
def rf_ctable_ascii (b : Nat) : Option Nat :=
  if 0x20 ≤ b ∧ b ≤ 0x7e then some b else none

/-- The translation loop of `rfdict_insert` (lines 747-751): map every
byte of the key through `rf_ctable_ascii`, aborting if any byte has no
mapping. -/
def translateKey : Key → Option Key
  | [] => some []
  | b :: t =>
    match rf_ctable_ascii b, translateKey t with
    | some c, some ct => some (c :: ct)
    | _, _ => none

/-- `rfdict_insert` (lines 703-963).  Steps, in source order: the key
length guard (abort over `RFDICT_MAXKEY`), the optional character-set
translation, the case fold for case-insensitive dictionaries, direct
root installation (black) into an empty tree, otherwise the `strcmp`
descent (duplicate ⇒ failure with the dictionary unchanged and the new
node freed; the freed node is simply not part of the result), attachment
of the new red node, the recoloring loop, and the rotation fixups.
Returns the C status flag (`true` = inserted) with the new dictionary,
or `none` where the C code aborts.  `rfdict_insert_go` is everything
after the key length guard of lines 723-729. -/
def rfdict_insert_go (d : RFDict) (key : Key) (v : Int) (translate : Bool) :
    Option (Bool × RFDict) :=
  match (if translate then translateKey key else some key) with
    | none => none
    | some k1 =>
      let k := if d.sensitive then k1 else foldKey k1
      match d.root with
      | RFNode.nil => some (true, ⟨RFNode.node false k v RFNode.nil RFNode.nil, d.sensitive⟩)
      | RFNode.node r0 k0 v0 l0 rt0 =>
        match rfdict_descend (RFNode.node r0 k0 v0 l0 rt0) k [] with
        | DescentResult.dup => some (false, d)
        | DescentResult.attach path =>
          match caseA path (RFNode.node true k v RFNode.nil RFNode.nil) with
          | none => none
          | some (p2, t2) =>
            match caseB p2 t2 with
            | none => none
            | some newRoot => some (true, ⟨newRoot, d.sensitive⟩)

/-- `rfdict_insert`, lines 703-963: the length guard (`slen` over
`RFDICT_MAXKEY` is a fatal contract violation, lines 726-729) followed
by the actual insertion. -/
def rfdict_insert (d : RFDict) (key : Key) (v : Int) (translate : Bool) :
    Option (Bool × RFDict) :=
  if RFDICT_MAXKEY < key.length then none
  else rfdict_insert_go d key v translate

/-- Number of nodes of a subtree. -/
def RFNode.size : RFNode → Nat
  | RFNode.nil => 0
  | RFNode.node _ _ _ l r => l.size + r.size + 1

/-- Total number of nodes stored along a parent chain. -/
def pathSize : RFPath → Nat
  | [] => 0
  | f :: p => f.sib.size + 1 + pathSize p

/-- The teardown walk of `rfdict_free` (lines 643-698), in zipper form:
from the current node, keep descending to an existing child (left
preferred, lines 659-670); at a childless node, unlink it from its
parent (lines 674-687), release it (record its key/value in the output
list) and continue from the parent (lines 689-692).  The emitted list is
the exact sequence of `free(pNode)` calls. -/
def rfdict_free_walk : RFPath → RFNode → List (Key × Int)
  | _, RFNode.nil => []
  | path, RFNode.node r k v (RFNode.node rl kl vl ll lr) rt =>
    rfdict_free_walk (⟨Side.left, r, k, v, rt⟩ :: path) (RFNode.node rl kl vl ll lr)
  | path, RFNode.node r k v RFNode.nil (RFNode.node rr kr vr rl2 rr2) =>
    rfdict_free_walk (⟨Side.right, r, k, v, RFNode.nil⟩ :: path) (RFNode.node rr kr vr rl2 rr2)
  | path, RFNode.node _ k v RFNode.nil RFNode.nil =>
    (k, v) ::
      (match path with
       | [] => []
       | ⟨Side.left, fr, fk, fv, fsib⟩ :: rest =>
         rfdict_free_walk rest (RFNode.node fr fk fv RFNode.nil fsib)
       | ⟨Side.right, fr, fk, fv, fsib⟩ :: rest =>
         rfdict_free_walk rest (RFNode.node fr fk fv fsib RFNode.nil))
termination_by path t => (pathSize path + t.size, t.size)
decreasing_by
  all_goals simp [Prod.lex_def, pathSize, RFNode.size]
  all_goals omega

/-- `rfdict_free` (lines 643-698): a NULL dictionary is a no-op; else
every node is released by the iterative walk and then the dictionary
object itself.  The result is the sequence of released nodes. -/
def rfdict_free : Option RFDict → List (Key × Int)
  | none => []
  | some d => rfdict_free_walk [] d.root

/-- Strict lower bound check for a key (no bound when `none`). -/
def boundLo (cmp : Key → Key → Int) : Option Key → Key → Bool
  | none, _ => true
  | some a, k => decide (cmp a k < 0)

/-- Strict upper bound check for a key (no bound when `none`). -/
def boundHi (cmp : Key → Key → Int) : Key → Option Key → Bool
  | _, none => true
  | k, some b => decide (cmp k b < 0)

/-- Binary-search-tree order check with optional strict bounds, under a
given comparator: every key in a left subtree compares less than its
node's key, every key in a right subtree greater (specification §3
invariant 1; duplicates excluded because both bounds are strict). -/
def rfdict_bst_ok (cmp : Key → Key → Int) (lo hi : Option Key) : RFNode → Bool
  | RFNode.nil => true
  | RFNode.node _ k _ l r =>
    boundLo cmp lo k && boundHi cmp k hi &&
    rfdict_bst_ok cmp lo (some k) l && rfdict_bst_ok cmp (some k) hi r

/-- No red node has a red child, i.e. no red node has a red parent
(specification §3 invariant 3; rule (2) of rfdict.c lines 99-115). -/
def rfdict_no_red_red : RFNode → Bool
  | RFNode.nil => true
  | RFNode.node r _ _ l rt =>
    (!(r && (rfdict_isred l || rfdict_isred rt))) && rfdict_no_red_red l && rfdict_no_red_red rt

/-- The black depths of all exit nodes (nodes with a missing child),
where the black depth of a node is the number of black nodes on the path
from the root down to and including the node (rule (3) of rfdict.c
lines 108-115, and the check of test_tree.c `verify_tree`). -/
def exitDepths : RFNode → Nat → List Nat
  | RFNode.nil, _ => []
  | RFNode.node r _ _ l rt, bd =>
    let bd2 := if r then bd else bd + 1
    (if l = RFNode.nil || rt = RFNode.nil then [bd2] else []) ++
      exitDepths l bd2 ++ exitDepths rt bd2

/-- All exit nodes have the same black depth (§3 invariant 4). -/
def rfdict_exit_uniform (t : RFNode) : Bool :=
  match exitDepths t 0 with
  | [] => true
  | d :: ds => ds.all (fun x => x = d)

/-- The four red-black invariants of specification §3, for a
dictionary: BST order without duplicates under the configured
comparator, black root, no red node with a red parent, and uniform
black depth of the exit nodes. -/
def rfdict_rb_ok (d : RFDict) : Bool :=
  rfdict_bst_ok (rfdict_cmp_spec d.sensitive) none none d.root &&
  !rfdict_isred d.root && rfdict_no_red_red d.root && rfdict_exit_uniform d.root

/-- A key with no lowercase ASCII letter (already case-folded). -/
def keyFoldFree (k : Key) : Bool :=
  k.all (fun b => !(decide (0x61 ≤ b) && decide (b ≤ 0x7a)))

/-- Every key stored in the tree is already case-folded — the property
the node documentation of rfdict.c (lines 127-130) requires of the keys
of a case-insensitive dictionary, and which `rfdict_insert` establishes
by folding each new key. -/
def treeFoldFree : RFNode → Bool
  | RFNode.nil => true
  | RFNode.node _ k _ l r => keyFoldFree k && treeFoldFree l && treeFoldFree r

/-- Keys of well-formed dictionaries: every stored key of a
case-insensitive dictionary is already folded (for case-sensitive
dictionaries there is no constraint). -/
def dictKeysNormal (d : RFDict) : Bool :=
  d.sensitive || treeFoldFree d.root

/-- In-order list of the (key, value) pairs of a subtree. -/
def inorder : RFNode → List (Key × Int)
  | RFNode.nil => []
  | RFNode.node _ k v l r => inorder l ++ (k, v) :: inorder r

/-- In-order list of the keys of a subtree. -/
def treeKeys (t : RFNode) : List Key := (inorder t).map Prod.fst

/-- Uniform black height: `some n` when every path from the root to a
missing-child position passes through exactly `n` black nodes (counting
the root if black), `none` when the black counts disagree.  Auxiliary,
recursion-friendly formulation of §3 invariant 4. -/
def blackHeight : RFNode → Option Nat
  | RFNode.nil => some 0
  | RFNode.node r _ _ l rt =>
    match blackHeight l, blackHeight rt with
    | some a, some b => if a = b then some (a + (if r then 0 else 1)) else none
    | _, _ => none

/-- Left child of a node (`pLeft`; `nil` for an absent node). -/
def RFNode.leftChild : RFNode → RFNode
  | RFNode.nil => RFNode.nil
  | RFNode.node _ _ _ l _ => l

/-- Right child of a node (`pRight`; `nil` for an absent node). -/
def RFNode.rightChild : RFNode → RFNode
  | RFNode.nil => RFNode.nil
  | RFNode.node _ _ _ _ r => r

/-- All (key, value) pairs stored along a parent chain: each frame's own
node plus its sibling subtree. -/
def pathItems : RFPath → List (Key × Int)
  | [] => []
  | f :: p => (f.key, f.val) :: inorder f.sib ++ pathItems p

/-- The strict bounds that the BST order imposes on whatever subtree
sits at the focused position of a parent chain. -/
def holeBounds : RFPath → Option Key × Option Key
  | [] => (none, none)
  | f :: p =>
    match f.side with
    | Side.left => ((holeBounds p).1, some f.key)
    | Side.right => (some f.key, (holeBounds p).2)

/-- BST-order well-formedness of a parent chain: every frame's key fits
the bounds of its own position and every sibling subtree is ordered
within its slot. -/
def ctxOrd (cmp : Key → Key → Int) : RFPath → Prop
  | [] => True
  | f :: p =>
    ctxOrd cmp p ∧ boundLo cmp (holeBounds p).1 f.key = true ∧
    boundHi cmp f.key (holeBounds p).2 = true ∧
    (match f.side with
     | Side.left => rfdict_bst_ok cmp (some f.key) (holeBounds p).2 f.sib
     | Side.right => rfdict_bst_ok cmp (holeBounds p).1 (some f.key) f.sib) = true

/-- Black height of the whole tree, given the black height of the
subtree at the focused position: `none` if some sibling subtree is
inconsistent or disagrees with the focus height. -/
def pathBH : RFPath → Nat → Option Nat
  | [], h => some h
  | f :: p, h =>
    match blackHeight f.sib with
    | some hs => if hs = h then pathBH p (h + (if f.red then 0 else 1)) else none
    | none => none

/-- Red-rule well-formedness of a parent chain: every sibling subtree
satisfies the red rule internally, and a red frame has a black parent
frame and a black-rooted sibling.  (Nothing is said about the focused
subtree itself.) -/
def ctxRR : RFPath → Prop
  | [] => True
  | f :: p =>
    rfdict_no_red_red f.sib = true ∧
    (f.red = true → rfdict_isred f.sib = false ∧ parentRed p = false) ∧
    ctxRR p

/-- The outermost frame of a parent chain is black (trivially true for
the empty chain, whose focus is the root itself). -/
def lastBlack : RFPath → Bool
  | [] => true
  | [f] => !f.red
  | _ :: f :: p => lastBlack (f :: p)

/-- Whether some stored key compares equal to `k` under a comparator. -/
def rfdict_has_key (cmp : Key → Key → Int) (t : RFNode) (k : Key) : Bool :=
  (treeKeys t).any (fun s => decide (cmp k s = 0))

/-- Strict byte-wise (unsigned) lexicographic order on keys — the order
realised by `c_strcmp`. -/
def byteLex (a b : Key) : Prop := List.Lex (fun x y : Nat => x < y) a b

/-- The stored pairs strictly to the left of the focused position, in
order: `inorder (plug p t) = ctxPre p ++ inorder t ++ ctxPost p`. -/
def ctxPre : RFPath → List (Key × Int)
  | [] => []
  | f :: p =>
    match f.side with
    | Side.left => ctxPre p
    | Side.right => ctxPre p ++ inorder f.sib ++ [(f.key, f.val)]

/-- The stored pairs strictly to the right of the focused position. -/
def ctxPost : RFPath → List (Key × Int)
  | [] => []
  | f :: p =>
    match f.side with
    | Side.left => (f.key, f.val) :: inorder f.sib ++ ctxPost p
    | Side.right => ctxPost p

/-- The invariant carried through the insertion fixup: the assembled
tree is BST-ordered (byte-wise, i.e. with respect to the comparison the
descent used) and has a well-defined uniform black height; the parent
chain satisfies the red rule and ends black; the focused subtree
satisfies the red rule internally (its root being red with a red parent
frame is the one violation the fixup is allowed to still contain); a
focus with no parent is black-rooted. -/
def FixInv (path : RFPath) (t : RFNode) : Prop :=
  rfdict_bst_ok c_strcmp none none (plug path t) = true ∧
  (blackHeight (plug path t)).isSome = true ∧
  ctxRR path ∧
  rfdict_no_red_red t = true ∧
  lastBlack path = true ∧
  (path = [] → rfdict_isred t = false)

/-- States from which the rotation phase (`caseB`) completes without
aborting: either there is no red-red violation any more, or the
violation's grandparent exists with a black (or missing) child — the
exit condition of the recoloring loop. -/
def caseBReady (path : RFPath) (t : RFNode) : Prop :=
  rfdict_isred t = false ∨ parentRed path = false ∨
  (∃ f1 f2 rest, path = f1 :: f2 :: rest ∧
    (rfdict_isblack (match f2.side with | Side.left => f1.fill t | Side.right => f2.sib) ||
     rfdict_isblack (match f2.side with | Side.left => f2.sib | Side.right => f1.fill t)) = true)

theorem c_strcmp_eq_zero_iff (a b : Key) : c_strcmp a b = 0 ↔ a = b := by
  induction a generalizing b with
  | nil => cases b <;> simp [c_strcmp]
  | cons x t ih =>
    cases b with
    | nil => simp [c_strcmp]
    | cons y s =>
      simp only [c_strcmp]
      rcases Nat.lt_trichotomy x y with h | h | h
      · simp only [if_pos h]
        constructor
        · intro hc; exact absurd hc (by decide)
        · intro hc
          exact absurd (List.cons.injEq .. ▸ hc).1 (Nat.ne_of_lt h)
      · subst h
        simp [Nat.lt_irrefl, ih]
      · rw [if_neg (Nat.lt_asymm h), if_pos h]
        constructor
        · intro hc; exact absurd hc (by decide)
        · intro hc
          exact absurd (List.cons.injEq .. ▸ hc).1 (Nat.ne_of_lt h).symm

theorem c_strcmp_neg_iff (a b : Key) : c_strcmp a b = -1 ↔ byteLex a b := by
  induction a generalizing b with
  | nil =>
    cases b with
    | nil =>
      simp only [c_strcmp, byteLex]
      constructor
      · intro hc; exact absurd hc (by decide)
      · intro hc; cases hc
    | cons y s =>
      simp only [c_strcmp, byteLex]
      constructor
      · intro _; exact List.Lex.nil
      · intro _; trivial
  | cons x t ih =>
    cases b with
    | nil =>
      simp only [c_strcmp, byteLex]
      constructor
      · intro hc; exact absurd hc (by decide)
      · intro hc; cases hc
    | cons y s =>
      simp only [c_strcmp, byteLex]
      rcases Nat.lt_trichotomy x y with h | h | h
      · simp only [if_pos h]
        constructor
        · intro _; exact List.Lex.rel h
        · intro _; trivial
      · subst h
        simp only [Nat.lt_irrefl, if_neg (Nat.lt_irrefl x)]
        constructor
        · intro hc; exact List.Lex.cons ((ih s).mp hc)
        · intro hc
          cases hc with
          | cons hl => exact (ih s).mpr hl
          | rel hr => exact absurd hr (Nat.lt_irrefl x)
      · rw [if_neg (Nat.lt_asymm h), if_pos h]
        constructor
        · intro hc; exact absurd hc (by decide)
        · intro hc
          cases hc with
          | cons hl => exact absurd h (Nat.lt_irrefl x)
          | rel hr => exact absurd h (Nat.lt_asymm hr)

theorem c_strcmp_cases (a b : Key) : c_strcmp a b = -1 ∨ c_strcmp a b = 0 ∨ c_strcmp a b = 1 := by
  induction a generalizing b with
  | nil => cases b <;> simp [c_strcmp]
  | cons x t ih =>
    cases b with
    | nil => simp [c_strcmp]
    | cons y s =>
      simp only [c_strcmp]
      rcases Nat.lt_trichotomy x y with h | h | h
      · simp [h]
      · subst h; simpa [Nat.lt_irrefl] using ih s
      · simp [Nat.lt_asymm h, h]

theorem c_strcmp_antisymm (a b : Key) : c_strcmp b a = -(c_strcmp a b) := by
  induction a generalizing b with
  | nil => cases b <;> simp [c_strcmp]
  | cons x t ih =>
    cases b with
    | nil => simp [c_strcmp]
    | cons y s =>
      simp only [c_strcmp]
      rcases Nat.lt_trichotomy x y with h | h | h
      · simp [h, Nat.lt_asymm h]
      · subst h; simp [Nat.lt_irrefl, ih]
      · simp [h, Nat.lt_asymm h]

theorem c_strcmp_lt_iff (a b : Key) : c_strcmp a b < 0 ↔ byteLex a b := by
  constructor
  · intro h
    rcases c_strcmp_cases a b with hc | hc | hc
    · exact (c_strcmp_neg_iff a b).mp hc
    · rw [hc] at h; exact absurd h (by decide)
    · rw [hc] at h; exact absurd h (by decide)
  · intro h
    rw [(c_strcmp_neg_iff a b).mpr h]
    decide

theorem byteLex_trans {a b c : Key} (h1 : byteLex a b) (h2 : byteLex b c) : byteLex a c := by
  have ht : IsTrans (List Nat) (List.Lex (fun x y : Nat => x < y)) := inferInstance
  exact ht.trans a b c h1 h2

theorem byteLex_irrefl (a : Key) : ¬ byteLex a a := by
  have ht : IsIrrefl (List Nat) (List.Lex (fun x y : Nat => x < y)) := inferInstance
  exact ht.irrefl a

theorem c_strcmp_trans_lt {a b c : Key} (h1 : c_strcmp a b < 0) (h2 : c_strcmp b c < 0) :
    c_strcmp a c < 0 :=
  (c_strcmp_lt_iff a c).mpr (byteLex_trans ((c_strcmp_lt_iff a b).mp h1) ((c_strcmp_lt_iff b c).mp h2))

theorem c_strcmp_self (a : Key) : c_strcmp a a = 0 := (c_strcmp_eq_zero_iff a a).mpr rfl

theorem c_strcmp_pos_iff (a b : Key) : 0 < c_strcmp a b ↔ c_strcmp b a < 0 := by
  rw [c_strcmp_antisymm a b]
  omega

/-- C4: the claim states that `rfdict_keycmp` with `sensitive = 0` orders
two strings like byte-wise comparison after folding a-z to A-Z in BOTH
operands.  At the failing input pKey1 = "A", pKey2 = "a" the code
returns "less" (the malformed fold condition of line 231 never folds the
second operand's lowercase letter), while folding both operands gives
equality.  This theorem evaluates the code at that failing input. -/
theorem c4_keycmp_asymmetric_fold :
    rfdict_keycmp [0x41] [0x61] false = -1 ∧
    c_strcmp (foldKey [0x41]) (foldKey [0x61]) = 0 := by decide

/-- C3: the claim states that after a successful insertion of (key,
value), `rfdict_get` of the same key returns the inserted value.  At the
failing input — a case-insensitive dictionary into which the key "{"
(byte 0x7b) was inserted with value 5 — the insertion succeeds, but the
lookup comparator's malformed fold condition maps the STORED byte 0x7b
to 0x5b while leaving the query byte 0x7b alone, so the descent turns
right past the only node and `rfdict_get` returns the default 0, not 5. -/
theorem c3_roundtrip_fails :
    (rfdict_insert (rfdict_alloc false) [0x7b] 5 false).map
      (fun r => (r.1, rfdict_get r.2 [0x7b] 0)) = some (true, 0) := by decide

/-- C8: the claim states that a key never successfully inserted returns
the caller-supplied default.  At the failing input — a case-insensitive
dictionary into which only "{" (0x7b) was ever inserted (with value 7),
queried for "[" (0x5b) with default 0 — `rfdict_get` returns 7: the
malformed fold condition of line 231 maps the stored byte 0x7b to 0x5b,
so the never-inserted key "[" compares equal to the stored "{".  The
last conjunct checks that "[" and "{" are NOT equal under the documented
comparator semantics, i.e. "[" is indeed a never-inserted key. -/
theorem c8_default_law_fails :
    (rfdict_insert (rfdict_alloc false) [0x7b] 7 false).map
      (fun r => (r.1, rfdict_get r.2 [0x5b] 0)) = some (true, 7) ∧
    rfdict_cmp_spec false [0x5b] [0x7b] ≠ 0 := by decide

/-- C5: the claim states that in EVERY case-insensitive dictionary into
which "Apple" was successfully inserted, `rfdict_get` of "Apple",
"APPLE" and "apple" returns the inserted value.  At the failing input —
a case-insensitive dictionary that already held a key with the non-ASCII
byte 0x80 before "Apple" was inserted with value 2 — both insertions
succeed, but `rfdict_get` of "Apple" returns the default 0: insertion
places "APPLE" to the LEFT of the 0x80 node (`strcmp` compares bytes as
unsigned, 0x80 > 0x41) while the lookup comparator reads the stored byte
through a signed char (0x80 ↦ -128 < 0x41) and turns RIGHT, missing the
node.  (The duplicate rejection of a later "apple" does still work, as
the final conjunct shows.) -/
theorem c5_case_folding_law_fails :
    (do
      let r1 ← rfdict_insert (rfdict_alloc false) [0x80] 1 false
      let r2 ← rfdict_insert r1.2 [0x41, 0x70, 0x70, 0x6c, 0x65] 2 false
      let r3 ← rfdict_insert r2.2 [0x61, 0x70, 0x70, 0x6c, 0x65] 9 false
      pure (r1.1, r2.1, rfdict_get r2.2 [0x41, 0x70, 0x70, 0x6c, 0x65] 0, r3.1)) =
      some (true, true, 0, false) := by decide

/-- C6: a left rotation requires the right child (mirror: left child) to
exist and otherwise aborts; with the child present it re-parents the
node beneath that child: the child's opposite-side subtree becomes the
node's child on the rotated side, the node becomes the child's child on
the opposite side, and the rotated subtree takes over the node's former
position in the tree — its old parent slot in any surrounding parent
chain, which is the dictionary root itself when the chain is empty.
Under the existence precondition the fatal branch is unreachable
(`isSome`). -/
theorem c6_rotation (c : Bool) (k : Key) (v : Int) (l : RFNode)
    (cR : Bool) (kR : Key) (vR : Int) (rl rr : RFNode) (p : RFPath) :
    rfdict_rol (RFNode.node c k v l (RFNode.node cR kR vR rl rr)) =
      some (RFNode.node cR kR vR (RFNode.node c k v l rl) rr) ∧
    rfdict_ror (RFNode.node c k v (RFNode.node cR kR vR rl rr) l) =
      some (RFNode.node cR kR vR rl (RFNode.node c k v rr l)) ∧
    (rfdict_rol (RFNode.node c k v l (RFNode.node cR kR vR rl rr))).map (plug p) =
      some (plug p (RFNode.node cR kR vR (RFNode.node c k v l rl) rr)) ∧
    rfdict_rol (RFNode.node c k v l RFNode.nil) = none ∧
    rfdict_ror (RFNode.node c k v RFNode.nil l) = none ∧
    rfdict_rol RFNode.nil = none ∧
    rfdict_ror RFNode.nil = none ∧
    (∀ t : RFNode, t ≠ RFNode.nil → t.rightChild ≠ RFNode.nil →
      (rfdict_rol t).isSome = true) ∧
    (∀ t : RFNode, t ≠ RFNode.nil → t.leftChild ≠ RFNode.nil →
      (rfdict_ror t).isSome = true) := by
  refine ⟨rfl, rfl, rfl, rfl, rfl, rfl, rfl, ?_, ?_⟩
  · intro t h1 h2
    match t, h1 with
    | RFNode.node c2 k2 v2 l2 r2, _ =>
      match r2, h2 with
      | RFNode.node .., _ => rfl
  · intro t h1 h2
    match t, h1 with
    | RFNode.node c2 k2 v2 l2 r2, _ =>
      match l2, h2 with
      | RFNode.node .., _ => rfl

/-- Witness for C6: the rotation facts instantiated at a concrete tree
(a two-node tree rotated left at its root, with an empty parent chain
standing for "the node was the dictionary root"). -/
theorem c6_rotation_witness :
    (RFNode.node true [2] 20 RFNode.nil RFNode.nil : RFNode) ≠ RFNode.nil ∧
    (rfdict_rol (RFNode.node false [1] 10 RFNode.nil
      (RFNode.node true [2] 20 RFNode.nil RFNode.nil))).isSome = true :=
  ⟨by decide,
   (c6_rotation false [1] 10 RFNode.nil true [2] 20 RFNode.nil RFNode.nil []).2.2.2.2.2.2.2.1
     (RFNode.node false [1] 10 RFNode.nil (RFNode.node true [2] 20 RFNode.nil RFNode.nil))
     (by decide) (by decide)⟩

/-- C9: a key longer than `RFDICT_MAXKEY` (16384 bytes, terminator not
counted) makes `rfdict_insert` abort at its length guard (lines
726-729), and with a key of length at most `RFDICT_MAXKEY` that fatal
branch is not taken — the call proceeds into the rest of the insertion
(`rfdict_insert_go`). -/
theorem c9_maxkey_guard (d : RFDict) (key : Key) (v : Int) (tr : Bool) :
    (RFDICT_MAXKEY < key.length → rfdict_insert d key v tr = none) ∧
    (key.length ≤ RFDICT_MAXKEY → rfdict_insert d key v tr = rfdict_insert_go d key v tr) := by
  constructor
  · intro h
    simp [rfdict_insert, h]
  · intro h
    simp [rfdict_insert, Nat.not_lt_of_le h]

/-- Witness for C9: a 16385-byte key aborts; a one-byte key reaches the
insertion proper (and in particular does not abort). -/
theorem c9_maxkey_guard_witness :
    rfdict_insert (rfdict_alloc true) (List.replicate 16385 65) 0 false = none ∧
    rfdict_insert (rfdict_alloc true) [65] 0 false =
      rfdict_insert_go (rfdict_alloc true) [65] 0 false :=
  ⟨(c9_maxkey_guard (rfdict_alloc true) (List.replicate 16385 65) 0 false).1
     (by rw [List.length_replicate]; norm_num [RFDICT_MAXKEY]),
   (c9_maxkey_guard (rfdict_alloc true) [65] 0 false).2
     (by norm_num [RFDICT_MAXKEY])⟩

/-- Every node of the focused subtree and of the parent chain is
released exactly once by the teardown walk: the emitted sequence of
freed nodes is a permutation of the nodes present. -/
theorem free_walk_perm (p : RFPath) (t : RFNode) :
    t ≠ RFNode.nil → (rfdict_free_walk p t).Perm (inorder t ++ pathItems p) := by
  induction p, t using rfdict_free_walk.induct with
  | case1 p => simp
  | case2 p r k v rl kl vl ll lr rt ih =>
      intro _
      have h2 := ih (by simp)
      simp only [rfdict_free_walk, inorder, pathItems, List.append_assoc, List.cons_append] at h2 ⊢
      exact h2
  | case3 p r k v rr kr vr rl2 rr2 ih =>
      intro _
      have h2 := ih (by simp)
      simp only [rfdict_free_walk, inorder, pathItems, List.append_assoc, List.cons_append,
        List.nil_append, List.append_nil] at h2 ⊢
      refine h2.trans ?_
      have s1 : (inorder rr2 ++ (k, v) :: pathItems p).Perm
          ((k, v) :: (inorder rr2 ++ pathItems p)) :=
        List.perm_middle
      have s2 : ((kr, vr) :: (inorder rr2 ++ (k, v) :: pathItems p)).Perm
          ((k, v) :: (kr, vr) :: (inorder rr2 ++ pathItems p)) :=
        (s1.cons _).trans (List.Perm.swap _ _ _)
      exact (List.Perm.append_left (inorder rl2) s2).trans List.perm_middle
  | case4 path red k v ih1 =>
      intro _
      rcases path with _ | ⟨⟨sd, fr, fk, fv, fsib⟩, rest⟩
      · simp [rfdict_free_walk, inorder, pathItems]
      · rcases sd
        · simp only at ih1
          have h2 := ih1 (by simp)
          simp only [rfdict_free_walk, inorder, pathItems, List.append_assoc, List.cons_append,
            List.nil_append] at h2 ⊢
          exact h2.cons _
        · simp only at ih1
          have h2 := ih1 (by simp)
          simp only [rfdict_free_walk, inorder, pathItems, List.append_assoc, List.cons_append,
            List.nil_append, List.append_nil] at h2 ⊢
          exact (h2.trans List.perm_middle).cons _

/-- C7: teardown releases every node exactly once (the sequence of
freed nodes is a permutation of the dictionary's nodes) and then the
dictionary itself, terminating for every finite tree — the walk is the
iterative descend-to-childless / unlink / free / return-to-parent loop
of rfdict.c, embedded as a total function — and calling it on an
absent (NULL) dictionary is a no-op that frees nothing. -/
theorem c7_teardown (d : RFDict) :
    rfdict_free none = [] ∧ (rfdict_free (some d)).Perm (inorder d.root) := by
  constructor
  · rfl
  · match hd : d.root with
    | RFNode.nil => simp [rfdict_free, rfdict_free_walk, inorder, hd]
    | RFNode.node r k v l rt =>
      have h2 := free_walk_perm [] (RFNode.node r k v l rt) (by simp)
      simp only [pathItems, List.append_nil] at h2
      simpa [rfdict_free, hd] using h2

theorem inorder_repaint (b : Bool) (t : RFNode) : inorder (repaint b t) = inorder t := by
  cases t <;> rfl

theorem isred_repaint_false (t : RFNode) : rfdict_isred (repaint false t) = false := by
  cases t <;> rfl

theorem noRR_repaint_black {t : RFNode} (h : rfdict_no_red_red t = true) :
    rfdict_no_red_red (repaint false t) = true := by
  cases t with
  | nil => rfl
  | node r k v l rt =>
    simp only [repaint, rfdict_no_red_red, Bool.and_eq_true] at h ⊢
    exact ⟨⟨by simp, h.1.2⟩, h.2⟩

theorem blackHeight_node_some {r : Bool} {k : Key} {v : Int} {l rt : RFNode} {a : Nat}
    (hl : blackHeight l = some a) (hrt : blackHeight rt = some a) :
    blackHeight (RFNode.node r k v l rt) = some (a + (if r then 0 else 1)) := by
  simp [blackHeight, hl, hrt]

theorem blackHeight_node_elim {r : Bool} {k : Key} {v : Int} {l rt : RFNode} {h : Nat}
    (hh : blackHeight (RFNode.node r k v l rt) = some h) :
    ∃ a, blackHeight l = some a ∧ blackHeight rt = some a ∧ h = a + (if r then 0 else 1) := by
  simp only [blackHeight] at hh
  rcases hl : blackHeight l with _ | a <;> rw [hl] at hh
  · simp at hh
  · rcases hrt : blackHeight rt with _ | b <;> rw [hrt] at hh
    · simp at hh
    · by_cases hab : a = b
      · subst hab
        simp at hh
        exact ⟨a, rfl, rfl, hh.symm⟩
      · simp [hab] at hh

theorem blackHeight_repaint_black {t : RFNode} {h : Nat} (hr : rfdict_isred t = true)
    (hh : blackHeight t = some h) : blackHeight (repaint false t) = some (h + 1) := by
  cases t with
  | nil => simp [rfdict_isred] at hr
  | node r k v l rt =>
    simp only [rfdict_isred] at hr
    subst hr
    rcases blackHeight_node_elim hh with ⟨a, hl, hrt, hha⟩
    simp only [if_pos rfl] at hha
    subst hha
    simpa [repaint] using blackHeight_node_some (r := false) (k := k) (v := v) hl hrt

theorem inorder_fill (f : Frame) (t : RFNode) :
    inorder (f.fill t) =
      match f.side with
      | Side.left => inorder t ++ (f.key, f.val) :: inorder f.sib
      | Side.right => inorder f.sib ++ (f.key, f.val) :: inorder t := by
  rcases f with ⟨s, r, k, v, sib⟩
  cases s <;> rfl

theorem inorder_plug (p : RFPath) (t : RFNode) :
    inorder (plug p t) = ctxPre p ++ inorder t ++ ctxPost p := by
  induction p generalizing t with
  | nil => simp [plug, ctxPre, ctxPost]
  | cons f p ih =>
    rcases f with ⟨s, r, k, v, sib⟩
    cases s <;>
      simp [plug, ih, Frame.fill, ctxPre, ctxPost, inorder, List.append_assoc]

theorem treeKeys_node (r : Bool) (k : Key) (v : Int) (l rt : RFNode) :
    treeKeys (RFNode.node r k v l rt) = treeKeys l ++ k :: treeKeys rt := by
  simp [treeKeys, inorder]

theorem treeKeys_nil : treeKeys RFNode.nil = [] := rfl

theorem size_eq_inorder_length (t : RFNode) : t.size = (inorder t).length := by
  induction t with
  | nil => rfl
  | node r k v l rt ihl ihr =>
    simp [RFNode.size, inorder, ihl, ihr]
    omega

theorem treeFoldFree_iff (t : RFNode) :
    treeFoldFree t = true ↔ ∀ s ∈ treeKeys t, keyFoldFree s = true := by
  induction t with
  | nil => simp [treeFoldFree, treeKeys_nil]
  | node r k v l rt ihl ihr =>
    rw [treeKeys_node]
    simp only [treeFoldFree, Bool.and_eq_true, ihl, ihr, List.mem_append, List.mem_cons]
    constructor
    · rintro ⟨⟨hk, hl⟩, hr⟩ s hs
      rcases hs with hs | hs | hs
      · exact hl s hs
      · exact hs ▸ hk
      · exact hr s hs
    · intro hall
      exact ⟨⟨hall k (Or.inr (Or.inl rfl)),
        fun s hs => hall s (Or.inl hs)⟩, fun s hs => hall s (Or.inr (Or.inr hs))⟩

theorem foldByte_foldFree (b : Nat) :
    (!(decide (0x61 ≤ foldByte b) && decide (foldByte b ≤ 0x7a))) = true := by
  unfold foldByte
  split <;> rename_i hcond <;> simp <;> omega

theorem foldKey_foldFree (k : Key) : keyFoldFree (foldKey k) = true := by
  induction k with
  | nil => rfl
  | cons b t ih =>
    simp only [foldKey, List.map_cons, keyFoldFree, List.all_cons, Bool.and_eq_true]
    exact ⟨foldByte_foldFree b, by simpa [keyFoldFree, foldKey] using ih⟩

theorem foldKey_id {k : Key} (h : keyFoldFree k = true) : foldKey k = k := by
  induction k with
  | nil => rfl
  | cons b t ih =>
    simp only [keyFoldFree, List.all_cons, Bool.and_eq_true] at h
    simp only [foldKey, List.map_cons]
    rw [List.cons.injEq]
    constructor
    · unfold foldByte
      rcases h with ⟨hb, _⟩
      split <;> rename_i hc
      · exfalso
        simp at hb
        omega
      · rfl
    · simpa [foldKey] using ih (by simpa [keyFoldFree] using h.2)

theorem foldKey_idem (k : Key) : foldKey (foldKey k) = foldKey k :=
  foldKey_id (foldKey_foldFree k)

theorem isred_fill (f : Frame) (t : RFNode) : rfdict_isred (f.fill t) = f.red := by
  rcases f with ⟨s, r, k, v, sib⟩
  cases s <;> rfl

theorem noRR_fill (f : Frame) (t : RFNode) :
    rfdict_no_red_red (f.fill t) = true ↔
      ((f.red = true → rfdict_isred t = false ∧ rfdict_isred f.sib = false) ∧
       rfdict_no_red_red t = true ∧ rfdict_no_red_red f.sib = true) := by
  rcases f with ⟨s, r, k, v, sib⟩
  cases s <;> cases r <;>
    simp [Frame.fill, rfdict_no_red_red, Bool.or_eq_true, not_or] <;> tauto

theorem noRR_plug (p : RFPath) (t : RFNode) :
    rfdict_no_red_red (plug p t) = true ↔
      (ctxRR p ∧ rfdict_no_red_red t = true ∧
       (parentRed p = true → rfdict_isred t = false)) := by
  induction p generalizing t with
  | nil => simp [plug, ctxRR, parentRed]
  | cons f p ih =>
    rw [plug, ih, noRR_fill, isred_fill]
    show _ ↔ ((_ ∧ _ ∧ _) ∧ _ ∧ _)
    rw [parentRed]
    constructor
    · rintro ⟨hc, ⟨hred, hnt, hns⟩, hpar⟩
      exact ⟨⟨hns, fun hf => ⟨(hred hf).2,
          by rcases hq : parentRed p with _ | _ <;> simp_all⟩, hc⟩,
        hnt, fun hf => (hred hf).1⟩
    · rintro ⟨⟨hns, hmix, hc⟩, hnt, hviol⟩
      exact ⟨hc, ⟨fun hf => ⟨hviol hf, (hmix hf).1⟩, hnt, hns⟩,
        fun hq => by rcases hf : f.red with _ | _ <;> simp_all [(hmix · |>.2)]⟩

theorem bh_fill_none (f : Frame) {t : RFNode} (h : blackHeight t = none) :
    blackHeight (f.fill t) = none := by
  rcases f with ⟨s, r, k, v, sib⟩
  cases s <;> simp only [Frame.fill, blackHeight, h] <;>
    rcases blackHeight sib with _ | a <;> rfl

theorem bh_plug_none (p : RFPath) : ∀ {t : RFNode}, blackHeight t = none →
    blackHeight (plug p t) = none := by
  induction p with
  | nil => intro t h; simpa [plug]
  | cons f p ih => intro t h; rw [plug]; exact ih (bh_fill_none f h)

theorem bh_fill (f : Frame) {t : RFNode} {h : Nat} (ht : blackHeight t = some h) :
    blackHeight (f.fill t) =
      (match blackHeight f.sib with
       | some hs => if hs = h then some (h + (if f.red then 0 else 1)) else none
       | none => none) := by
  rcases f with ⟨s, r, k, v, sib⟩
  cases s <;> simp only [Frame.fill, blackHeight, ht] <;>
    rcases hs : blackHeight sib with _ | a
  · rfl
  · by_cases hah : a = h
    · subst hah; simp
    · simp [hah, Ne.symm hah]
  · rfl
  · by_cases hah : a = h
    · subst hah; simp
    · simp [hah, Ne.symm hah]

theorem bh_plug (p : RFPath) : ∀ {t : RFNode} {h : Nat}, blackHeight t = some h →
    blackHeight (plug p t) = pathBH p h := by
  induction p with
  | nil => intro t h ht; simpa [plug, pathBH]
  | cons f p ih =>
    intro t h ht
    rw [plug, pathBH]
    rcases hs : blackHeight f.sib with _ | a
    · rw [bh_plug_none p (by rw [bh_fill f ht, hs])]
    · by_cases hah : a = h
      · subst hah
        have h2 := bh_fill f ht
        rw [hs] at h2
        simp only [if_pos rfl, if_true] at h2
        rw [ih h2]
        simp
      · rw [bh_plug_none p (by rw [bh_fill f ht, hs]; simp [hah])]
        simp [hah]

theorem pathBH_cons_some {f : Frame} {p : RFPath} {h : Nat}
    (hs : (pathBH (f :: p) h).isSome = true) :
    blackHeight f.sib = some h ∧
      (pathBH p (h + (if f.red then 0 else 1))).isSome = true := by
  rw [pathBH] at hs
  rcases hb : blackHeight f.sib with _ | a <;> rw [hb] at hs
  · simp at hs
  · by_cases hah : a = h
    · subst hah
      simp only [if_pos rfl] at hs
      exact ⟨rfl, hs⟩
    · simp [hah] at hs

theorem lastBlack_cons {f : Frame} {p : RFPath} (hp : p ≠ []) :
    lastBlack (f :: p) = lastBlack p := by
  cases p with
  | nil => exact absurd rfl hp
  | cons g q => rfl

theorem isred_plug (p : RFPath) (t : RFNode) :
    rfdict_isred (plug p t) =
      (match p with | [] => rfdict_isred t | _ :: _ => !lastBlack p) := by
  induction p generalizing t with
  | nil => rfl
  | cons f p ih =>
    rw [plug, ih]
    cases p with
    | nil => simp [isred_fill, lastBlack]
    | cons g q => rfl

theorem boundHi_trans {s a : Key} {hi : Option Key} (h1 : c_strcmp s a < 0)
    (h2 : boundHi c_strcmp a hi = true) : boundHi c_strcmp s hi = true := by
  cases hi with
  | none => rfl
  | some b =>
    simp only [boundHi, decide_eq_true_eq] at h2 ⊢
    exact c_strcmp_trans_lt h1 h2

theorem boundLo_trans {s a : Key} {lo : Option Key} (h1 : c_strcmp a s < 0)
    (h2 : boundLo c_strcmp lo a = true) : boundLo c_strcmp lo s = true := by
  cases lo with
  | none => rfl
  | some b =>
    simp only [boundLo, decide_eq_true_eq] at h2 ⊢
    exact c_strcmp_trans_lt h2 h1

theorem bst_ok_iff_pairwise (lo hi : Option Key) (t : RFNode) :
    rfdict_bst_ok c_strcmp lo hi t = true ↔
      (List.Pairwise (fun a b => c_strcmp a b < 0) (treeKeys t) ∧
       ∀ s ∈ treeKeys t, boundLo c_strcmp lo s = true ∧ boundHi c_strcmp s hi = true) := by
  induction t generalizing lo hi with
  | nil => simp [rfdict_bst_ok, treeKeys_nil]
  | node r k v l rt ihl ihr =>
    rw [treeKeys_node]
    simp only [rfdict_bst_ok, Bool.and_eq_true, ihl, ihr]
    rw [List.pairwise_append, List.pairwise_cons]
    constructor
    · rintro ⟨⟨⟨hlo, hhi⟩, hpl, hbl⟩, hpr, hbr⟩
      have hkl : ∀ s ∈ treeKeys l, c_strcmp s k < 0 := by
        intro s hs
        have h2 := (hbl s hs).2
        simpa [boundHi] using h2
      have hkr : ∀ s ∈ treeKeys rt, c_strcmp k s < 0 := by
        intro s hs
        have h2 := (hbr s hs).1
        simpa [boundLo] using h2
      refine ⟨⟨hpl, ⟨hkr, hpr⟩, ?_⟩, ?_⟩
      · intro a ha b hb
        rcases List.mem_cons.mp hb with hb | hb
        · exact hb ▸ hkl a ha
        · exact c_strcmp_trans_lt (hkl a ha) (hkr b hb)
      · intro s hs
        rcases List.mem_append.mp hs with hs | hs
        · exact ⟨(hbl s hs).1, boundHi_trans (hkl s hs) hhi⟩
        · rcases List.mem_cons.mp hs with hs | hs
          · exact hs ▸ ⟨hlo, hhi⟩
          · exact ⟨boundLo_trans (hkr s hs) hlo, (hbr s hs).2⟩
    · rintro ⟨⟨hpl, ⟨hkr, hpr⟩, hcross⟩, hball⟩
      have hk := hball k (by simp)
      refine ⟨⟨hk, hpl, ?_⟩, hpr, ?_⟩
      · intro s hs
        refine ⟨(hball s (List.mem_append.mpr (Or.inl hs))).1, ?_⟩
        simpa [boundHi] using hcross s hs k (by simp)
      · intro s hs
        refine ⟨?_, (hball s (List.mem_append.mpr (Or.inr (List.mem_cons.mpr (Or.inr hs))))).2⟩
        simpa [boundLo] using hkr s hs

theorem bst_mem_bounds {lo hi : Option Key} {t : RFNode}
    (h : rfdict_bst_ok c_strcmp lo hi t = true) :
    ∀ s ∈ treeKeys t, boundLo c_strcmp lo s = true ∧ boundHi c_strcmp s hi = true :=
  ((bst_ok_iff_pairwise lo hi t).mp h).2

theorem bst_global_iff (t : RFNode) :
    rfdict_bst_ok c_strcmp none none t = true ↔
      List.Pairwise (fun a b => c_strcmp a b < 0) (treeKeys t) := by
  rw [bst_ok_iff_pairwise]
  simp [boundLo, boundHi]

theorem bst_global_congr {x y : RFNode} (h : treeKeys x = treeKeys y) :
    (rfdict_bst_ok c_strcmp none none x = true) ↔
      (rfdict_bst_ok c_strcmp none none y = true) := by
  rw [bst_global_iff, bst_global_iff, h]

theorem cmp_spec_eq_strcmp {sens : Bool} {a b : Key}
    (ha : sens = false → keyFoldFree a = true) (hb : sens = false → keyFoldFree b = true) :
    rfdict_cmp_spec sens a b = c_strcmp a b := by
  cases sens with
  | false => simp [rfdict_cmp_spec, foldKey_id (ha rfl), foldKey_id (hb rfl)]
  | true => rfl

theorem bst_spec_eq {sens : Bool} (lo hi : Option Key) (t : RFNode)
    (hff : sens = false → treeFoldFree t = true)
    (hlo : sens = false → ∀ a, lo = some a → keyFoldFree a = true)
    (hhi : sens = false → ∀ a, hi = some a → keyFoldFree a = true) :
    rfdict_bst_ok (rfdict_cmp_spec sens) lo hi t = rfdict_bst_ok c_strcmp lo hi t := by
  induction t generalizing lo hi with
  | nil => rfl
  | node r k v l rt ihl ihr =>
    have hffn : sens = false →
        keyFoldFree k = true ∧ treeFoldFree l = true ∧ treeFoldFree rt = true := by
      intro hs
      have h2 := hff hs
      simp only [treeFoldFree, Bool.and_eq_true] at h2
      exact ⟨h2.1.1, h2.1.2, h2.2⟩
    have hblo : boundLo (rfdict_cmp_spec sens) lo k = boundLo c_strcmp lo k := by
      cases lo with
      | none => rfl
      | some a =>
        simp only [boundLo]
        rw [cmp_spec_eq_strcmp (fun hs => hlo hs a rfl) (fun hs => (hffn hs).1)]
    have hbhi : boundHi (rfdict_cmp_spec sens) k hi = boundHi c_strcmp k hi := by
      cases hi with
      | none => rfl
      | some a =>
        simp only [boundHi]
        rw [cmp_spec_eq_strcmp (fun hs => (hffn hs).1) (fun hs => hhi hs a rfl)]
    rw [rfdict_bst_ok, rfdict_bst_ok, hblo, hbhi,
      ihl lo (some k) (fun hs => (hffn hs).2.1) hlo (fun hs a ha => by
        rw [Option.some.injEq] at ha
        exact ha ▸ (hffn hs).1),
      ihr (some k) hi (fun hs => (hffn hs).2.2) (fun hs a ha => by
        rw [Option.some.injEq] at ha
        exact ha ▸ (hffn hs).1) hhi]

theorem exitDepths_shift (t : RFNode) (bd : Nat) :
    exitDepths t bd = (exitDepths t 0).map (fun d => d + bd) := by
  induction t generalizing bd with
  | nil => rfl
  | node r k v l rt ihl ihr =>
    have hb : ∀ (b0 : Nat), exitDepths l (b0 + bd) = (exitDepths l b0).map (fun d => d + bd) := by
      intro b0
      rw [ihl (b0 + bd), ihl b0, List.map_map]
      apply List.map_congr_left
      intro a _
      simp only [Function.comp_apply]
      omega
    have hbr : ∀ (b0 : Nat), exitDepths rt (b0 + bd) = (exitDepths rt b0).map (fun d => d + bd) := by
      intro b0
      rw [ihr (b0 + bd), ihr b0, List.map_map]
      apply List.map_congr_left
      intro a _
      simp only [Function.comp_apply]
      omega
    have hbd2 : (if r then bd else bd + 1) = (if r then 0 else 0 + 1) + bd := by
      cases r <;> simp <;> omega
    simp only [exitDepths, List.map_append]
    rw [hbd2, hb, hbr]
    congr 1
    congr 1
    split <;> rfl

theorem exitDepths_ne_nil (t : RFNode) : t ≠ RFNode.nil → ∀ bd, exitDepths t bd ≠ [] := by
  induction t with
  | nil => exact fun h => absurd rfl h
  | node r k v l rt ihl ihr =>
    intro _ bd
    simp only [exitDepths]
    intro hc
    rw [List.append_eq_nil] at hc
    rcases hc with ⟨hc1, _⟩
    rw [List.append_eq_nil] at hc1
    rcases hc1 with ⟨hif, hl⟩
    rcases hln : l with _ | ⟨r2, k2, v2, l2, rt2⟩
    · rw [hln] at hif
      simp at hif
    · exact ihl (by intro hcc; rw [hcc] at hln; cases hln) _ hl

theorem blackHeight_exit {t : RFNode} {n : Nat} (h : blackHeight t = some n) :
    ∀ d ∈ exitDepths t 0, d = n := by
  induction t generalizing n with
  | nil => simp [exitDepths]
  | node r k v l rt ihl ihr =>
    rcases blackHeight_node_elim h with ⟨a, hl, hrt, hn⟩
    intro d hd
    simp only [exitDepths] at hd
    rcases List.mem_append.mp hd with hd | hd
    · rcases List.mem_append.mp hd with hd | hd
      · split at hd
        · rename_i hex
          simp only [List.mem_singleton] at hd
          subst hd
          have ha : a = 0 := by
            rcases Bool.or_eq_true .. |>.mp hex with hnil | hnil
            · rw [decide_eq_true_eq] at hnil
              rw [hnil] at hl
              simpa [blackHeight] using hl.symm
            · rw [decide_eq_true_eq] at hnil
              rw [hnil] at hrt
              simpa [blackHeight] using hrt.symm
          subst ha
          subst hn
          rcases r <;> simp
        · simp at hd
      · rw [exitDepths_shift] at hd
        rcases List.mem_map.mp hd with ⟨e, he, hde⟩
        have hea := ihl hl e he
        subst hde
        subst hea
        subst hn
        rcases r <;> simp
    · rw [exitDepths_shift] at hd
      rcases List.mem_map.mp hd with ⟨e, he, hde⟩
      have hea := ihr hrt e he
      subst hde
      subst hea
      subst hn
      rcases r <;> simp

theorem exit_uniform_iff_forall (t : RFNode) :
    rfdict_exit_uniform t = true ↔
      ∀ x ∈ exitDepths t 0, ∀ y ∈ exitDepths t 0, x = y := by
  unfold rfdict_exit_uniform
  rcases he : exitDepths t 0 with _ | ⟨d, ds⟩
  · simp
  · simp only [List.all_eq_true, decide_eq_true_eq]
    constructor
    · intro hall x hx y hy
      have hval : ∀ z ∈ d :: ds, z = d := by
        intro z hz
        rcases List.mem_cons.mp hz with hz | hz
        · exact hz
        · exact hall z hz
      rw [hval x hx, hval y hy]
    · intro h2 x hx
      exact h2 x (List.mem_cons.mpr (Or.inr hx)) d (List.mem_cons.mpr (Or.inl rfl))

theorem exit_uniform_isSome (t : RFNode) :
    rfdict_exit_uniform t = true → (blackHeight t).isSome = true := by
  induction t with
  | nil => intro _; simp [blackHeight]
  | node r k v l rt ihl ihr =>
    intro hu
    rw [exit_uniform_iff_forall] at hu
    simp only [exitDepths] at hu
    have hmap_l : ∀ x ∈ exitDepths l 0,
        (x + (if r then 0 else 0 + 1)) ∈
          ((if (l = RFNode.nil || rt = RFNode.nil) = true
              then [if r then 0 else 0 + 1] else []) ++
            exitDepths l (if r then 0 else 0 + 1) ++
            exitDepths rt (if r then 0 else 0 + 1)) := by
      intro x hx
      refine List.mem_append.mpr (Or.inl (List.mem_append.mpr (Or.inr ?_)))
      rw [exitDepths_shift]
      exact List.mem_map_of_mem _ hx
    have hmap_r : ∀ x ∈ exitDepths rt 0,
        (x + (if r then 0 else 0 + 1)) ∈
          ((if (l = RFNode.nil || rt = RFNode.nil) = true
              then [if r then 0 else 0 + 1] else []) ++
            exitDepths l (if r then 0 else 0 + 1) ++
            exitDepths rt (if r then 0 else 0 + 1)) := by
      intro x hx
      refine List.mem_append.mpr (Or.inr ?_)
      rw [exitDepths_shift]
      exact List.mem_map_of_mem _ hx
    have hul : rfdict_exit_uniform l = true := by
      rw [exit_uniform_iff_forall]
      intro x hx y hy
      have h2 := hu _ (hmap_l x hx) _ (hmap_l y hy)
      omega
    have hur : rfdict_exit_uniform rt = true := by
      rw [exit_uniform_iff_forall]
      intro x hx y hy
      have h2 := hu _ (hmap_r x hx) _ (hmap_r y hy)
      omega
    obtain ⟨a, ha⟩ := Option.isSome_iff_exists.mp (ihl hul)
    obtain ⟨b, hbb⟩ := Option.isSome_iff_exists.mp (ihr hur)
    have hab : a = b := by
      rcases hln : l with _ | ⟨r2, k2, v2, l2, rt2⟩
      · have ha0 : a = 0 := by
          rw [hln] at ha
          simpa [blackHeight] using ha.symm
        rcases hrn : rt with _ | ⟨r3, k3, v3, l3, rt3⟩
        · have hb0 : b = 0 := by
            rw [hrn] at hbb
            simpa [blackHeight] using hbb.symm
          omega
        · -- node is an exit node; rt has an exit of depth b
          have hx0 : (if r then 0 else 0 + 1) ∈ ((if (l = RFNode.nil || rt = RFNode.nil) = true
              then [if r then 0 else 0 + 1] else []) ++
            exitDepths l (if r then 0 else 0 + 1) ++
            exitDepths rt (if r then 0 else 0 + 1)) := by
            refine List.mem_append.mpr (Or.inl (List.mem_append.mpr (Or.inl ?_)))
            rw [hln]
            simp
          obtain ⟨e, hee⟩ := List.exists_mem_of_ne_nil _
            (exitDepths_ne_nil rt (by rw [hrn]; intro hc; cases hc) 0)
          have heb : e = b := blackHeight_exit hbb e hee
          have h2 := hu _ hx0 _ (hmap_r e hee)
          omega
      · obtain ⟨e, hee⟩ := List.exists_mem_of_ne_nil _
          (exitDepths_ne_nil l (by rw [hln]; intro hc; cases hc) 0)
        have hea : e = a := blackHeight_exit ha e hee
        rcases hrn : rt with _ | ⟨r3, k3, v3, l3, rt3⟩
        · have hb0 : b = 0 := by
            rw [hrn] at hbb
            simpa [blackHeight] using hbb.symm
          have hx0 : (if r then 0 else 0 + 1) ∈ ((if (l = RFNode.nil || rt = RFNode.nil) = true
              then [if r then 0 else 0 + 1] else []) ++
            exitDepths l (if r then 0 else 0 + 1) ++
            exitDepths rt (if r then 0 else 0 + 1)) := by
            refine List.mem_append.mpr (Or.inl (List.mem_append.mpr (Or.inl ?_)))
            rw [hrn]
            simp
          have h2 := hu _ hx0 _ (hmap_l e hee)
          omega
        · obtain ⟨e2, hee2⟩ := List.exists_mem_of_ne_nil _
            (exitDepths_ne_nil rt (by rw [hrn]; intro hc; cases hc) 0)
          have heb : e2 = b := blackHeight_exit hbb e2 hee2
          have h2 := hu _ (hmap_l e hee) _ (hmap_r e2 hee2)
          omega
    subst hab
    rw [blackHeight_node_some ha hbb]
    rfl

theorem exit_uniform_iff (t : RFNode) :
    rfdict_exit_uniform t = true ↔ (blackHeight t).isSome = true := by
  constructor
  · exact exit_uniform_isSome t
  · intro hs
    obtain ⟨n, hn⟩ := Option.isSome_iff_exists.mp hs
    rw [exit_uniform_iff_forall]
    intro x hx y hy
    rw [blackHeight_exit hn x hx, blackHeight_exit hn y hy]

theorem rfdict_descend_node_eq (r : Bool) (k : Key) (v : Int) (l rt : RFNode)
    (nk : Key) (p : RFPath) :
    rfdict_descend (RFNode.node r k v l rt) nk p =
      (if c_strcmp k nk = 0 then DescentResult.dup
       else if 0 < c_strcmp k nk then
         match l with
         | RFNode.nil => DescentResult.attach (⟨Side.left, r, k, v, rt⟩ :: p)
         | RFNode.node r2 k2 v2 l2 rt2 =>
           rfdict_descend (RFNode.node r2 k2 v2 l2 rt2) nk (⟨Side.left, r, k, v, rt⟩ :: p)
       else
         match rt with
         | RFNode.nil => DescentResult.attach (⟨Side.right, r, k, v, l⟩ :: p)
         | RFNode.node r2 k2 v2 l2 rt2 =>
           rfdict_descend (RFNode.node r2 k2 v2 l2 rt2) nk (⟨Side.right, r, k, v, l⟩ :: p)) := by
  conv_lhs => rw [rfdict_descend.eq_def]

theorem descend_plug (t : RFNode) (nk : Key) :
    ∀ (p : RFPath) {path : RFPath},
      rfdict_descend t nk p = DescentResult.attach path →
      plug path RFNode.nil = plug p t := by
  induction t with
  | nil =>
    intro p path h
    rw [show rfdict_descend RFNode.nil nk p = DescentResult.attach p from rfl] at h
    cases h
    rfl
  | node r k v l rt ihl ihr =>
    intro p path h
    rw [rfdict_descend_node_eq] at h
    by_cases h0 : c_strcmp k nk = 0
    · rw [if_pos h0] at h
      cases h
    · rw [if_neg h0] at h
      by_cases hpos : 0 < c_strcmp k nk
      · rw [if_pos hpos] at h
        rcases hl : l with _ | ⟨r2, k2, v2, l2, rt2⟩ <;> subst hl <;> dsimp only at h
        · cases h
          rfl
        · have h2 := ihl (⟨Side.left, r, k, v, rt⟩ :: p) h
          rw [h2]
          rfl
      · rw [if_neg hpos] at h
        rcases hrt : rt with _ | ⟨r2, k2, v2, l2, rt2⟩ <;> subst hrt <;> dsimp only at h
        · cases h
          rfl
        · have h2 := ihr (⟨Side.right, r, k, v, l⟩ :: p) h
          rw [h2]
          rfl

theorem descend_bounds (t : RFNode) (nk : Key) :
    ∀ (p : RFPath) {path : RFPath},
      boundLo c_strcmp (holeBounds p).1 nk = true →
      boundHi c_strcmp nk (holeBounds p).2 = true →
      rfdict_descend t nk p = DescentResult.attach path →
      boundLo c_strcmp (holeBounds path).1 nk = true ∧
        boundHi c_strcmp nk (holeBounds path).2 = true := by
  induction t with
  | nil =>
    intro p path hlo hhi h
    rw [show rfdict_descend RFNode.nil nk p = DescentResult.attach p from rfl] at h
    cases h
    exact ⟨hlo, hhi⟩
  | node r k v l rt ihl ihr =>
    intro p path hlo hhi h
    rw [rfdict_descend_node_eq] at h
    by_cases h0 : c_strcmp k nk = 0
    · rw [if_pos h0] at h
      cases h
    · rw [if_neg h0] at h
      by_cases hpos : 0 < c_strcmp k nk
      · rw [if_pos hpos] at h
        have hnk : boundHi c_strcmp nk
            (holeBounds (⟨Side.left, r, k, v, rt⟩ :: p)).2 = true := by
          simp only [holeBounds, boundHi, decide_eq_true_eq]
          exact (c_strcmp_pos_iff k nk).mp hpos
        have hlo2 : boundLo c_strcmp
            (holeBounds (⟨Side.left, r, k, v, rt⟩ :: p)).1 nk = true := by
          simpa only [holeBounds] using hlo
        rcases hl : l with _ | ⟨r2, k2, v2, l2, rt2⟩ <;> subst hl <;> dsimp only at h
        · cases h
          exact ⟨hlo2, hnk⟩
        · exact ihl _ hlo2 hnk h
      · rw [if_neg hpos] at h
        have hneg : c_strcmp k nk < 0 := by
          rcases c_strcmp_cases k nk with hc | hc | hc
          · omega
          · exact absurd hc h0
          · omega
        have hnk : boundLo c_strcmp
            (holeBounds (⟨Side.right, r, k, v, l⟩ :: p)).1 nk = true := by
          simp only [holeBounds, boundLo, decide_eq_true_eq]
          omega
        have hhi2 : boundHi c_strcmp nk
            (holeBounds (⟨Side.right, r, k, v, l⟩ :: p)).2 = true := by
          simpa only [holeBounds] using hhi
        rcases hrt : rt with _ | ⟨r2, k2, v2, l2, rt2⟩ <;> subst hrt <;> dsimp only at h
        · cases h
          exact ⟨hnk, hhi2⟩
        · exact ihr _ hnk hhi2 h

theorem descend_dup_mem (t : RFNode) (nk : Key) :
    ∀ (p : RFPath), rfdict_descend t nk p = DescentResult.dup → nk ∈ treeKeys t := by
  induction t with
  | nil =>
    intro p h
    rw [show rfdict_descend RFNode.nil nk p = DescentResult.attach p from rfl] at h
    cases h
  | node r k v l rt ihl ihr =>
    intro p h
    rw [rfdict_descend_node_eq] at h
    rw [treeKeys_node]
    by_cases h0 : c_strcmp k nk = 0
    · have hk : k = nk := (c_strcmp_eq_zero_iff k nk).mp h0
      subst hk
      simp
    · rw [if_neg h0] at h
      by_cases hpos : 0 < c_strcmp k nk
      · rw [if_pos hpos] at h
        rcases hl : l with _ | ⟨r2, k2, v2, l2, rt2⟩ <;> subst hl <;> dsimp only at h
        · cases h
        · exact List.mem_append.mpr (Or.inl (ihl _ h))
      · rw [if_neg hpos] at h
        rcases hrt : rt with _ | ⟨r2, k2, v2, l2, rt2⟩ <;> subst hrt <;> dsimp only at h
        · cases h
        · exact List.mem_append.mpr (Or.inr (List.mem_cons.mpr (Or.inr (ihr _ h))))

theorem descend_attach_not_mem (t : RFNode) (nk : Key) :
    ∀ (p : RFPath) {path : RFPath} (lo hi : Option Key),
      rfdict_bst_ok c_strcmp lo hi t = true →
      rfdict_descend t nk p = DescentResult.attach path →
      nk ∉ treeKeys t := by
  induction t with
  | nil =>
    intro p path lo hi hbst h
    simp [treeKeys_nil]
  | node r k v l rt ihl ihr =>
    intro p path lo hi hbst h
    rw [rfdict_descend_node_eq] at h
    simp only [rfdict_bst_ok, Bool.and_eq_true] at hbst
    obtain ⟨⟨⟨hlo, hhi⟩, hbl⟩, hbr⟩ := hbst
    rw [treeKeys_node]
    by_cases h0 : c_strcmp k nk = 0
    · rw [if_pos h0] at h
      cases h
    · rw [if_neg h0] at h
      have hkn : k ≠ nk := fun hc => h0 (hc ▸ c_strcmp_self k)
      by_cases hpos : 0 < c_strcmp k nk
      · rw [if_pos hpos] at h
        have hnkk : c_strcmp nk k < 0 := (c_strcmp_pos_iff k nk).mp hpos
        have hnr : nk ∉ treeKeys rt := by
          intro hmem
          have h2 := (bst_mem_bounds hbr nk hmem).1
          simp only [boundLo, decide_eq_true_eq] at h2
          have h3 := c_strcmp_trans_lt hnkk h2
          rw [(c_strcmp_eq_zero_iff nk nk).mpr rfl] at h3
          exact absurd h3 (by decide)
        intro hmem
        rcases List.mem_append.mp hmem with hm | hm
        · rcases hl : l with _ | ⟨r2, k2, v2, l2, rt2⟩ <;> subst hl
          · simp [treeKeys_nil] at hm
          · dsimp only at h
            exact ihl _ lo (some k) hbl h hm
        · rcases List.mem_cons.mp hm with hm | hm
          · exact hkn hm.symm
          · exact hnr hm
      · rw [if_neg hpos] at h
        have hneg : c_strcmp k nk < 0 := by
          rcases c_strcmp_cases k nk with hc | hc | hc
          · omega
          · exact absurd hc h0
          · omega
        have hnl : nk ∉ treeKeys l := by
          intro hmem
          have h2 := (bst_mem_bounds hbl nk hmem).2
          simp only [boundHi, decide_eq_true_eq] at h2
          have h3 := c_strcmp_trans_lt h2 hneg
          rw [(c_strcmp_eq_zero_iff nk nk).mpr rfl] at h3
          exact absurd h3 (by decide)
        intro hmem
        rcases List.mem_append.mp hmem with hm | hm
        · exact hnl hm
        · rcases List.mem_cons.mp hm with hm | hm
          · exact hkn hm.symm
          · rcases hrt : rt with _ | ⟨r2, k2, v2, l2, rt2⟩ <;> subst hrt
            · simp [treeKeys_nil] at hm
            · dsimp only at h
              exact ihr _ (some k) hi hbr h hm

theorem descend_mem_dup (t : RFNode) (nk : Key) :
    ∀ (p : RFPath) (lo hi : Option Key),
      rfdict_bst_ok c_strcmp lo hi t = true → nk ∈ treeKeys t →
      rfdict_descend t nk p = DescentResult.dup := by
  induction t with
  | nil =>
    intro p lo hi _ hmem
    simp [treeKeys_nil] at hmem
  | node r k v l rt ihl ihr =>
    intro p lo hi hbst hmem
    rw [rfdict_descend_node_eq]
    simp only [rfdict_bst_ok, Bool.and_eq_true] at hbst
    obtain ⟨⟨⟨hlo, hhi⟩, hbl⟩, hbr⟩ := hbst
    rw [treeKeys_node] at hmem
    by_cases h0 : c_strcmp k nk = 0
    · rw [if_pos h0]
    · rw [if_neg h0]
      have hkn : k ≠ nk := fun hc => h0 (hc ▸ c_strcmp_self k)
      by_cases hpos : 0 < c_strcmp k nk
      · rw [if_pos hpos]
        have hnkk : c_strcmp nk k < 0 := (c_strcmp_pos_iff k nk).mp hpos
        have hml : nk ∈ treeKeys l := by
          rcases List.mem_append.mp hmem with hm | hm
          · exact hm
          · rcases List.mem_cons.mp hm with hm | hm
            · exact absurd hm.symm hkn
            · exfalso
              have h2 := (bst_mem_bounds hbr nk hm).1
              simp only [boundLo, decide_eq_true_eq] at h2
              have h3 := c_strcmp_trans_lt hnkk h2
              rw [(c_strcmp_eq_zero_iff nk nk).mpr rfl] at h3
              exact absurd h3 (by decide)
        rcases hl : l with _ | ⟨r2, k2, v2, l2, rt2⟩ <;> subst hl
        · simp [treeKeys_nil] at hml
        · dsimp only
          exact ihl _ lo (some k) hbl hml
      · rw [if_neg hpos]
        have hneg : c_strcmp k nk < 0 := by
          rcases c_strcmp_cases k nk with hc | hc | hc
          · omega
          · exact absurd hc h0
          · omega
        have hmr : nk ∈ treeKeys rt := by
          rcases List.mem_append.mp hmem with hm | hm
          · exfalso
            have h2 := (bst_mem_bounds hbl nk hm).2
            simp only [boundHi, decide_eq_true_eq] at h2
            have h3 := c_strcmp_trans_lt h2 hneg
            rw [(c_strcmp_eq_zero_iff nk nk).mpr rfl] at h3
            exact absurd h3 (by decide)
          · rcases List.mem_cons.mp hm with hm | hm
            · exact absurd hm.symm hkn
            · exact hm
        rcases hrt : rt with _ | ⟨r2, k2, v2, l2, rt2⟩ <;> subst hrt
        · simp [treeKeys_nil] at hmr
        · dsimp only
          exact ihr _ (some k) hi hbr hmr

theorem fixinv_bh_local {path : RFPath} {t : RFNode}
    (hg : (blackHeight (plug path t)).isSome = true) :
    ∃ h, blackHeight t = some h ∧ (pathBH path h).isSome = true := by
  rcases hb : blackHeight t with _ | h
  · rw [bh_plug_none path hb] at hg
    cases hg
  · refine ⟨h, rfl, ?_⟩
    rw [bh_plug path hb] at hg
    exact hg

theorem bh_global_of_local {path : RFPath} {t : RFNode} {h : Nat}
    (ht : blackHeight t = some h) (hp : (pathBH path h).isSome = true) :
    (blackHeight (plug path t)).isSome = true := by
  rw [bh_plug path ht]
  exact hp

theorem bst_global_of_inorder {x y : RFNode} (h : inorder x = inorder y)
    (hy : rfdict_bst_ok c_strcmp none none y = true) :
    rfdict_bst_ok c_strcmp none none x = true := by
  refine (bst_global_congr ?_).mpr hy
  simp [treeKeys, h]

theorem inorder_recolorGrand (f1 f2 : Frame) (g : Bool) (t : RFNode) :
    inorder (recolorGrand f1 f2 g t) = inorder (f2.fill (f1.fill t)) := by
  rcases f1 with ⟨s1, r1, k1, v1, sib1⟩
  rcases f2 with ⟨s2, r2, k2, v2, sib2⟩
  cases s1 <;> cases s2 <;>
    simp [recolorGrand, inorder, Frame.fill, inorder_repaint]

theorem isred_recolorGrand (f1 f2 : Frame) (g : Bool) (t : RFNode) :
    rfdict_isred (recolorGrand f1 f2 g t) = g := by
  rcases f2 with ⟨s2, r2, k2, v2, sib2⟩
  cases s2 <;> rfl

theorem noRR_recolorGrand (f1 f2 : Frame) (g : Bool) (t : RFNode)
    (hnt : rfdict_no_red_red t = true) (hns1 : rfdict_no_red_red f1.sib = true)
    (hns2 : rfdict_no_red_red f2.sib = true) :
    rfdict_no_red_red (recolorGrand f1 f2 g t) = true := by
  have hfill : rfdict_no_red_red (Frame.fill { f1 with red := false } t) = true := by
    rw [noRR_fill]
    exact ⟨fun hc => by simp at hc, hnt, hns1⟩
  have hch1 : rfdict_isred (Frame.fill { f1 with red := false } t) = false := by
    rw [isred_fill]
  have hch2 : rfdict_isred (repaint false f2.sib) = false := isred_repaint_false _
  have hut : rfdict_no_red_red (repaint false f2.sib) = true := noRR_repaint_black hns2
  rcases f2 with ⟨s2, r2, k2, v2, sib2⟩
  cases s2 <;>
    simp only [recolorGrand, rfdict_no_red_red, Bool.and_eq_true] <;>
    refine ⟨⟨by simp_all, by simp_all⟩, by simp_all⟩

theorem blackHeight_recolorGrand (f1 f2 : Frame) (g : Bool) {t : RFNode} {h : Nat}
    (ht : blackHeight t = some h) (hs1 : blackHeight f1.sib = some h)
    (hs2 : blackHeight f2.sib = some h) (hred2 : rfdict_isred f2.sib = true) :
    blackHeight (recolorGrand f1 f2 g t) = some (h + 1 + (if g then 0 else 1)) := by
  have hpT : blackHeight (Frame.fill { f1 with red := false } t) = some (h + 1) := by
    rw [bh_fill _ ht]
    show (match blackHeight f1.sib with
          | some hs => if hs = h then some (h + 2 - 2 + _) else none
          | none => none) = _
    rw [hs1]
    simp
  have hut : blackHeight (repaint false f2.sib) = some (h + 1) :=
    blackHeight_repaint_black hred2 hs2
  rcases f2 with ⟨s2, r2, k2, v2, sib2⟩
  cases s2 <;> simp only [recolorGrand]
  · rw [blackHeight_node_some hpT hut]
  · rw [blackHeight_node_some hut hpT]

theorem caseALoop_spec (f1 f2 : Frame) (rest : RFPath) (t : RFNode)
    (hpre : FixInv (f1 :: f2 :: rest) t)
    (hred : rfdict_isred t = true) (hf1 : f1.red = true) :
    ∃ q, caseALoop f1 f2 rest t = some q ∧ FixInv q.1 q.2 ∧
      inorder (plug q.1 q.2) = inorder (plug (f1 :: f2 :: rest) t) ∧
      caseBReady q.1 q.2 := by
  obtain ⟨hgb, hgbh, hcrr, hnrr, hlb, _⟩ := hpre
  have hns1 : rfdict_no_red_red f1.sib = true := hcrr.1
  have hf1c := hcrr.2.1 hf1
  have hsib1 : rfdict_isred f1.sib = false := hf1c.1
  have hf2black : f2.red = false := hf1c.2
  have hns2 : rfdict_no_red_red f2.sib = true := hcrr.2.2.1
  have hcrr_rest : ctxRR rest := hcrr.2.2.2.2
  obtain ⟨h, hth, hpbh⟩ := fixinv_bh_local hgbh
  obtain ⟨hbs1, hpbh2⟩ := pathBH_cons_some hpbh
  have hpbh2b : (pathBH (f2 :: rest) h).isSome = true := by
    simpa [hf1] using hpbh2
  obtain ⟨hbs2, hpbh3⟩ := pathBH_cons_some hpbh2b
  have hpbh3b : (pathBH rest (h + 1)).isSome = true := by
    simpa [hf2black] using hpbh3
  have hcond : (rfdict_isred (match f2.side with
        | Side.left => f1.fill t | Side.right => f2.sib) &&
       rfdict_isred (match f2.side with
        | Side.left => f2.sib | Side.right => f1.fill t)) = rfdict_isred f2.sib := by
    rcases hs2 : f2.side <;> simp [hs2, isred_fill, hf1]
  have hexit : FixInv (f1 :: f2 :: rest) t ∧ caseBReady (f1 :: f2 :: rest) t ∨ True :=
    Or.inr trivial
  have hfix_same : rfdict_isred f2.sib = false →
      FixInv (f1 :: f2 :: rest) t ∧ caseBReady (f1 :: f2 :: rest) t := by
    intro hu
    refine ⟨⟨hgb, hgbh, hcrr, hnrr, hlb, fun hc => nomatch hc⟩,
      Or.inr (Or.inr ⟨f1, f2, rest, rfl, ?_⟩)⟩
    rcases hs2 : f2.side <;> simp [hs2, rfdict_isblack, hu]
  rcases hre : rest with _ | ⟨f3, rest2⟩ <;> subst hre
  · rw [caseALoop.eq_1, hcond]
    rcases hu : rfdict_isred f2.sib with _ | _
    · simp only [Bool.false_eq_true, if_false]
      obtain ⟨hfx, hrd⟩ := hfix_same hu
      exact ⟨(f1 :: f2 :: [], t), rfl, hfx, rfl, hrd⟩
    · simp only [if_true]
      refine ⟨([], recolorGrand f1 f2 false t), rfl,
        ⟨?_, ?_, trivial, ?_, rfl, fun _ => isred_recolorGrand f1 f2 false t⟩, ?_, ?_⟩
      · exact bst_global_of_inorder (inorder_recolorGrand f1 f2 false t) hgb
      · show (blackHeight (recolorGrand f1 f2 false t)).isSome = true
        rw [blackHeight_recolorGrand f1 f2 false hth hbs1 hbs2 hu]
        rfl
      · exact noRR_recolorGrand f1 f2 false t hnrr hns1 hns2
      · exact inorder_recolorGrand f1 f2 false t
      · exact Or.inr (Or.inl rfl)
  · have hrg : rfdict_isred (recolorGrand f1 f2 true t) = true :=
      isred_recolorGrand f1 f2 true t
    have hino2 : inorder (plug (f3 :: rest2) (recolorGrand f1 f2 true t)) =
        inorder (plug (f1 :: f2 :: f3 :: rest2) t) := by
      show _ = inorder (plug (f3 :: rest2) (f2.fill (f1.fill t)))
      rw [inorder_plug, inorder_plug, inorder_recolorGrand]
    have hfix2 : rfdict_isred f2.sib = true →
        FixInv (f3 :: rest2) (recolorGrand f1 f2 true t) := by
      intro hu
      have hbt2 : blackHeight (recolorGrand f1 f2 true t) = some (h + 1) := by
        rw [blackHeight_recolorGrand f1 f2 true hth hbs1 hbs2 hu]
        rfl
      refine ⟨?_, ?_, hcrr_rest, ?_, ?_, fun hc => nomatch hc⟩
      · exact bst_global_of_inorder hino2 hgb
      · exact bh_global_of_local hbt2 hpbh3b
      · exact noRR_recolorGrand f1 f2 true t hnrr hns1 hns2
      · rw [lastBlack_cons (by simp), lastBlack_cons (by simp)] at hlb
        exact hlb
    rcases hre2 : rest2 with _ | ⟨f4, rest3⟩ <;> subst hre2
    · rw [caseALoop.eq_2, hcond]
      rcases hu : rfdict_isred f2.sib with _ | _
      · simp only [Bool.false_eq_true, if_false]
        obtain ⟨hfx, hrd⟩ := hfix_same hu
        exact ⟨(f1 :: f2 :: [f3], t), rfl, hfx, rfl, hrd⟩
      · simp only [if_true, hrg, Bool.true_and]
        rcases hf3 : f3.red with _ | _
        · simp only [Bool.false_eq_true, if_false]
          exact ⟨([f3], recolorGrand f1 f2 true t), rfl, hfix2 hu, hino2,
            Or.inr (Or.inl hf3)⟩
        · exfalso
          simp only [lastBlack] at hlb
          simp [hf3] at hlb
    · rw [caseALoop.eq_3, hcond]
      rcases hu : rfdict_isred f2.sib with _ | _
      · simp only [Bool.false_eq_true, if_false]
        obtain ⟨hfx, hrd⟩ := hfix_same hu
        exact ⟨(f1 :: f2 :: f3 :: f4 :: rest3, t), rfl, hfx, rfl, hrd⟩
      · simp only [if_true, hrg, Bool.true_and]
        rcases hf3 : f3.red with _ | _
        · simp only [Bool.false_eq_true, if_false]
          exact ⟨(f3 :: f4 :: rest3, recolorGrand f1 f2 true t), rfl, hfix2 hu, hino2,
            Or.inr (Or.inl hf3)⟩
        · simp only [if_true]
          obtain ⟨q, hq, hfq, hiq, hrq⟩ := caseALoop_spec f3 f4 rest3
            (recolorGrand f1 f2 true t) (hfix2 hu) hrg hf3
          exact ⟨q, hq, hfq, hiq.trans hino2, hrq⟩
termination_by rest.length
decreasing_by
  subst_vars
  simp only [List.length_cons]
  omega

theorem isred_plug_black {p : RFPath} {t : RFNode} (hl : lastBlack p = true)
    (h0 : p = [] → rfdict_isred t = false) : rfdict_isred (plug p t) = false := by
  rw [isred_plug]
  rcases p with _ | ⟨f, q⟩
  · exact h0 rfl
  · simp [hl]

theorem lastBlack_drop2 {f1 f2 : Frame} {rest : RFPath}
    (h : lastBlack (f1 :: f2 :: rest) = true) : lastBlack rest = true := by
  rcases rest with _ | ⟨g, q⟩
  · rfl
  · rw [lastBlack_cons (by simp), lastBlack_cons (by simp)] at h
    exact h

theorem caseA_spec (path : RFPath) (t : RFNode) (hpre : FixInv path t) :
    ∃ q, caseA path t = some q ∧ FixInv q.1 q.2 ∧
      inorder (plug q.1 q.2) = inorder (plug path t) ∧
      caseBReady q.1 q.2 := by
  obtain ⟨hgb, hgbh, hcrr, hnrr, hlb, hroot⟩ := hpre
  unfold caseA
  by_cases hv : rfdict_isred t = true ∧ parentRed path = true
  · obtain ⟨hv1, hv2⟩ := hv
    rw [hv1, hv2]
    simp only [Bool.and_self, if_true]
    rcases path with _ | ⟨f1, prest⟩
    · cases hv2
    · rcases prest with _ | ⟨f2, rest⟩
      · exfalso
        simp only [lastBlack] at hlb
        have hf1 : f1.red = true := hv2
        simp [hf1] at hlb
      · exact caseALoop_spec f1 f2 rest t ⟨hgb, hgbh, hcrr, hnrr, hlb, hroot⟩ hv1 hv2
  · have hcond : (rfdict_isred t && parentRed path) = false := by
      rcases h1 : rfdict_isred t <;> rcases h2 : parentRed path <;> simp_all
    rw [hcond]
    simp only [Bool.false_eq_true, if_false]
    refine ⟨(path, t), rfl, ⟨hgb, hgbh, hcrr, hnrr, hlb, hroot⟩, rfl, ?_⟩
    rcases h1 : rfdict_isred t with _ | _
    · exact Or.inl h1
    · rcases h2 : parentRed path with _ | _
      · exact Or.inr (Or.inl h2)
      · exact absurd ⟨h1, h2⟩ hv

theorem caseB_spec (path : RFPath) (t : RFNode)
    (hpre : FixInv path t) (hready : caseBReady path t) :
    ∃ res, caseB path t = some res ∧
      inorder res = inorder (plug path t) ∧
      rfdict_bst_ok c_strcmp none none res = true ∧
      rfdict_isred res = false ∧
      rfdict_no_red_red res = true ∧
      (blackHeight res).isSome = true := by
  obtain ⟨hgb, hgbh, hcrr, hnrr, hlb, hroot⟩ := hpre
  by_cases hv : rfdict_isred t = true ∧ parentRed path = true
  case neg =>
    have hcond : (rfdict_isred t && parentRed path) = false := by
      rcases h1 : rfdict_isred t <;> rcases h2 : parentRed path <;> simp_all
    unfold caseB
    rw [hcond]
    simp only [Bool.false_eq_true, if_false]
    refine ⟨plug path t, rfl, rfl, hgb, isred_plug_black hlb hroot, ?_, hgbh⟩
    rw [noRR_plug]
    refine ⟨hcrr, hnrr, fun hp => ?_⟩
    rcases h1 : rfdict_isred t with _ | _
    · rfl
    · exact absurd ⟨h1, hp⟩ hv
  case pos =>
    obtain ⟨hv1, hv2⟩ := hv
    rcases path with _ | ⟨f1, prest⟩
    · cases hv2
    · rcases prest with _ | ⟨f2, rest⟩
      · exfalso
        simp only [lastBlack] at hlb
        have hf1 : f1.red = true := hv2
        simp [hf1] at hlb
      · have hcout : (rfdict_isred t && parentRed (f1 :: f2 :: rest)) = true := by
          simp [hv1, hv2]
        have hf1 : f1.red = true := hv2
        have hns1 : rfdict_no_red_red f1.sib = true := hcrr.1
        have hsib1 : rfdict_isred f1.sib = false := (hcrr.2.1 hf1).1
        have hf2black : f2.red = false := (hcrr.2.1 hf1).2
        have hns2 : rfdict_no_red_red f2.sib = true := hcrr.2.2.1
        have hcrr_rest : ctxRR rest := hcrr.2.2.2.2
        obtain ⟨h, hth, hpbh⟩ := fixinv_bh_local hgbh
        obtain ⟨hbs1, hpbh2⟩ := pathBH_cons_some hpbh
        have hpbh2b : (pathBH (f2 :: rest) h).isSome = true := by
          simpa [hf1] using hpbh2
        obtain ⟨hbs2, hpbh3⟩ := pathBH_cons_some hpbh2b
        have hpbh3b : (pathBH rest (h + 1)).isSome = true := by
          simpa [hf2black] using hpbh3
        have hlbr : lastBlack rest = true := lastBlack_drop2 hlb
        have huncle : (rfdict_isblack (match f2.side with
              | Side.left => f1.fill t | Side.right => f2.sib) ||
            rfdict_isblack (match f2.side with
              | Side.left => f2.sib | Side.right => f1.fill t)) = true := by
          rcases hready with h1 | h2 | ⟨g1, g2, grest, heq, hcondb⟩
          · rw [h1] at hv1
            cases hv1
          · rw [h2] at hv2
            cases hv2
          · injection heq with e1 erest
            injection erest with e2 e3
            subst e1
            subst e2
            subst e3
            exact hcondb
        have hu : rfdict_isred f2.sib = false := by
          rcases hside2 : f2.side <;> rw [hside2] at huncle <;>
            simpa [rfdict_isblack, isred_fill, hf1] using huncle
        rcases f1 with ⟨s1, r1, k1, v1, sib1⟩
        rcases f2 with ⟨s2, r2, k2, v2, sib2⟩
        have hf1x : r1 = true := hf1
        have hf2x : r2 = false := hf2black
        subst hf1x
        subst hf2x
        have hns1x : rfdict_no_red_red sib1 = true := hns1
        have hsib1x : rfdict_isred sib1 = false := hsib1
        have hns2x : rfdict_no_red_red sib2 = true := hns2
        have hbs1x : blackHeight sib1 = some h := hbs1
        have hbs2x : blackHeight sib2 = some h := hbs2
        have hbs : rfdict_isblack sib2 = true := by
          have hux : rfdict_isred sib2 = false := hu
          simp [rfdict_isblack, hux]
        cases s1 <;> cases s2
        · -- zig-zig: child left of parent, parent left of grandparent (ror only)
          refine ⟨plug rest (RFNode.node false k1 v1 t
            (RFNode.node true k2 v2 sib1 sib2)), ?_, ?_, ?_, ?_, ?_, ?_⟩
          · unfold caseB
            rw [if_pos hcout]
            dsimp only [Frame.fill]
            rw [if_pos (show (rfdict_isblack (RFNode.node true k1 v1 t sib1) ||
              rfdict_isblack sib2) = true by simp [hbs])]
            dsimp only [rfdict_ror]
          · show _ = inorder (plug rest (RFNode.node false k2 v2
              (RFNode.node true k1 v1 t sib1) sib2))
            rw [inorder_plug, inorder_plug]
            simp [inorder, List.append_assoc]
          · refine bst_global_of_inorder ?_ hgb
            show _ = inorder (plug rest (RFNode.node false k2 v2
              (RFNode.node true k1 v1 t sib1) sib2))
            rw [inorder_plug, inorder_plug]
            simp [inorder, List.append_assoc]
          · exact isred_plug_black hlbr (fun _ => rfl)
          · rw [noRR_plug]
            refine ⟨hcrr_rest, ?_, fun _ => rfl⟩
            simp [rfdict_no_red_red, hnrr, hns1x, hns2x, hsib1x, hu]
          · have hinner : blackHeight (RFNode.node true k2 v2 sib1 sib2) = some h := by
              rw [blackHeight_node_some hbs1x hbs2x]
              rfl
            have hg2 : blackHeight (RFNode.node false k1 v1 t
                (RFNode.node true k2 v2 sib1 sib2)) = some (h + 1) := by
              rw [blackHeight_node_some hth hinner]
              rfl
            exact bh_global_of_local hg2 hpbh3b
        · -- zig-zag: child left of parent, parent right of grandparent
          rcases t with _ | ⟨tr, tk, tv, tl, trt⟩
          · cases hv1
          · have htr : tr = true := by
              simpa [rfdict_isred] using hv1
            subst htr
            have hnrrt := hnrr
            simp only [rfdict_no_red_red, Bool.and_eq_true, Bool.true_and,
              Bool.not_eq_true', Bool.or_eq_false_iff] at hnrrt
            obtain ⟨⟨⟨htl, htrt⟩, hntl⟩, hntrt⟩ := hnrrt
            obtain ⟨a, hbtl, hbtrt, hha⟩ := blackHeight_node_elim hth
            have hah : a = h := by simp at hha; omega
            rw [hah] at hbtl hbtrt
            refine ⟨plug rest (RFNode.node false tk tv
              (RFNode.node true k2 v2 sib2 tl)
              (RFNode.node true k1 v1 trt sib1)), ?_, ?_, ?_, ?_, ?_, ?_⟩
            · unfold caseB
              rw [if_pos hcout]
              dsimp only [Frame.fill, repaint]
              rw [if_pos (show (rfdict_isblack sib2 ||
                rfdict_isblack (RFNode.node true k1 v1
                  (RFNode.node true tk tv tl trt) sib1)) = true by simp [hbs])]
              dsimp only [rfdict_ror, rfdict_rol]
            · show _ = inorder (plug rest (RFNode.node false k2 v2 sib2
                (RFNode.node true k1 v1 (RFNode.node true tk tv tl trt) sib1)))
              rw [inorder_plug, inorder_plug]
              simp [inorder, List.append_assoc]
            · refine bst_global_of_inorder ?_ hgb
              show _ = inorder (plug rest (RFNode.node false k2 v2 sib2
                (RFNode.node true k1 v1 (RFNode.node true tk tv tl trt) sib1)))
              rw [inorder_plug, inorder_plug]
              simp [inorder, List.append_assoc]
            · exact isred_plug_black hlbr (fun _ => rfl)
            · rw [noRR_plug]
              refine ⟨hcrr_rest, ?_, fun _ => rfl⟩
              simp [rfdict_no_red_red, hntl, hntrt, hns1x, hns2x, hsib1x, hu, htl, htrt]
            · have hin1 : blackHeight (RFNode.node true k2 v2 sib2 tl) = some h := by
                rw [blackHeight_node_some hbs2x hbtl]
                rfl
              have hin2 : blackHeight (RFNode.node true k1 v1 trt sib1) = some h := by
                rw [blackHeight_node_some hbtrt hbs1x]
                rfl
              have hg2 : blackHeight (RFNode.node false tk tv
                  (RFNode.node true k2 v2 sib2 tl)
                  (RFNode.node true k1 v1 trt sib1)) = some (h + 1) := by
                rw [blackHeight_node_some hin1 hin2]
                rfl
              exact bh_global_of_local hg2 hpbh3b
        · -- zig-zag: child right of parent, parent left of grandparent
          rcases t with _ | ⟨tr, tk, tv, tl, trt⟩
          · cases hv1
          · have htr : tr = true := by
              simpa [rfdict_isred] using hv1
            subst htr
            have hnrrt := hnrr
            simp only [rfdict_no_red_red, Bool.and_eq_true, Bool.true_and,
              Bool.not_eq_true', Bool.or_eq_false_iff] at hnrrt
            obtain ⟨⟨⟨htl, htrt⟩, hntl⟩, hntrt⟩ := hnrrt
            obtain ⟨a, hbtl, hbtrt, hha⟩ := blackHeight_node_elim hth
            have hah : a = h := by simp at hha; omega
            rw [hah] at hbtl hbtrt
            refine ⟨plug rest (RFNode.node false tk tv
              (RFNode.node true k1 v1 sib1 tl)
              (RFNode.node true k2 v2 trt sib2)), ?_, ?_, ?_, ?_, ?_, ?_⟩
            · unfold caseB
              rw [if_pos hcout]
              dsimp only [Frame.fill, repaint]
              rw [if_pos (show (rfdict_isblack (RFNode.node true k1 v1 sib1
                  (RFNode.node true tk tv tl trt)) ||
                rfdict_isblack sib2) = true by simp [hbs])]
              dsimp only [rfdict_ror, rfdict_rol]
            · show _ = inorder (plug rest (RFNode.node false k2 v2
                (RFNode.node true k1 v1 sib1 (RFNode.node true tk tv tl trt)) sib2))
              rw [inorder_plug, inorder_plug]
              simp [inorder, List.append_assoc]
            · refine bst_global_of_inorder ?_ hgb
              show _ = inorder (plug rest (RFNode.node false k2 v2
                (RFNode.node true k1 v1 sib1 (RFNode.node true tk tv tl trt)) sib2))
              rw [inorder_plug, inorder_plug]
              simp [inorder, List.append_assoc]
            · exact isred_plug_black hlbr (fun _ => rfl)
            · rw [noRR_plug]
              refine ⟨hcrr_rest, ?_, fun _ => rfl⟩
              simp [rfdict_no_red_red, hntl, hntrt, hns1x, hns2x, hsib1x, hu, htl, htrt]
            · have hin1 : blackHeight (RFNode.node true k1 v1 sib1 tl) = some h := by
                rw [blackHeight_node_some hbs1x hbtl]
                rfl
              have hin2 : blackHeight (RFNode.node true k2 v2 trt sib2) = some h := by
                rw [blackHeight_node_some hbtrt hbs2x]
                rfl
              have hg2 : blackHeight (RFNode.node false tk tv
                  (RFNode.node true k1 v1 sib1 tl)
                  (RFNode.node true k2 v2 trt sib2)) = some (h + 1) := by
                rw [blackHeight_node_some hin1 hin2]
                rfl
              exact bh_global_of_local hg2 hpbh3b
        · -- zig-zig: child right of parent, parent right of grandparent (rol only)
          refine ⟨plug rest (RFNode.node false k1 v1
            (RFNode.node true k2 v2 sib2 sib1) t), ?_, ?_, ?_, ?_, ?_, ?_⟩
          · unfold caseB
            rw [if_pos hcout]
            dsimp only [Frame.fill]
            rw [if_pos (show (rfdict_isblack sib2 ||
              rfdict_isblack (RFNode.node true k1 v1 sib1 t)) = true by simp [hbs])]
            dsimp only [rfdict_rol]
          · show _ = inorder (plug rest (RFNode.node false k2 v2 sib2
              (RFNode.node true k1 v1 sib1 t)))
            rw [inorder_plug, inorder_plug]
            simp [inorder, List.append_assoc]
          · refine bst_global_of_inorder ?_ hgb
            show _ = inorder (plug rest (RFNode.node false k2 v2 sib2
              (RFNode.node true k1 v1 sib1 t)))
            rw [inorder_plug, inorder_plug]
            simp [inorder, List.append_assoc]
          · exact isred_plug_black hlbr (fun _ => rfl)
          · rw [noRR_plug]
            refine ⟨hcrr_rest, ?_, fun _ => rfl⟩
            simp [rfdict_no_red_red, hnrr, hns1x, hns2x, hsib1x, hu]
          · have hinner : blackHeight (RFNode.node true k2 v2 sib2 sib1) = some h := by
              rw [blackHeight_node_some hbs2x hbs1x]
              rfl
            have hg2 : blackHeight (RFNode.node false k1 v1
                (RFNode.node true k2 v2 sib2 sib1) t) = some (h + 1) := by
              rw [blackHeight_node_some hinner hth]
              rfl
            exact bh_global_of_local hg2 hpbh3b

theorem bst_plug_iff (p : RFPath) : ∀ (t : RFNode),
    rfdict_bst_ok c_strcmp none none (plug p t) = true ↔
      (ctxOrd c_strcmp p ∧
       rfdict_bst_ok c_strcmp (holeBounds p).1 (holeBounds p).2 t = true) := by
  induction p with
  | nil =>
    intro t
    simp [plug, ctxOrd, holeBounds]
  | cons f p ih =>
    intro t
    rw [show plug (f :: p) t = plug p (f.fill t) from rfl, ih]
    rcases f with ⟨s, r, fk, fv, sib⟩
    cases s <;>
      simp only [Frame.fill, ctxOrd, holeBounds, rfdict_bst_ok, Bool.and_eq_true] <;>
      tauto

theorem lastBlack_push (f : Frame) {p : RFPath} (hl : lastBlack p = true)
    (hr : p = [] → f.red = false) : lastBlack (f :: p) = true := by
  cases p with
  | nil => simp [lastBlack, hr rfl]
  | cons g q =>
    rw [lastBlack_cons (List.cons_ne_nil g q)]
    exact hl

theorem descend_lastBlack (t : RFNode) (nk : Key) :
    ∀ (p : RFPath) {path : RFPath},
      rfdict_descend t nk p = DescentResult.attach path →
      (p = [] → rfdict_isred t = false) →
      lastBlack p = true →
      lastBlack path = true := by
  induction t with
  | nil =>
    intro p path h _ hlast
    rw [show rfdict_descend RFNode.nil nk p = DescentResult.attach p from rfl] at h
    cases h
    exact hlast
  | node r k v l rt ihl ihr =>
    intro p path h hroot hlast
    have hpush : ∀ (s : Side) (sib : RFNode),
        lastBlack (⟨s, r, k, v, sib⟩ :: p) = true :=
      fun s sib => lastBlack_push _ hlast (fun hp => hroot hp)
    rw [rfdict_descend_node_eq] at h
    by_cases h0 : c_strcmp k nk = 0
    · rw [if_pos h0] at h
      cases h
    · rw [if_neg h0] at h
      by_cases hpos : 0 < c_strcmp k nk
      · rw [if_pos hpos] at h
        rcases hl : l with _ | ⟨r2, k2, v2, l2, rt2⟩ <;> subst hl <;> dsimp only at h
        · cases h
          exact hpush Side.left rt
        · exact ihl _ h (fun hc => absurd hc (List.cons_ne_nil _ _)) (hpush Side.left rt)
      · rw [if_neg hpos] at h
        rcases hrt : rt with _ | ⟨r2, k2, v2, l2, rt2⟩ <;> subst hrt <;> dsimp only at h
        · cases h
          exact hpush Side.right l
        · exact ihr _ h (fun hc => absurd hc (List.cons_ne_nil _ _)) (hpush Side.right l)

/-- Full analysis of one `rfdict_insert` call on a well-formed dictionary
(red-black invariants under the documented comparator plus fold-free
stored keys): the call never aborts past the length guard, succeeds
exactly when the (translated, folded) key is not already stored, leaves
the dictionary untouched on a duplicate, and on success produces a
well-formed dictionary whose contents are the old contents plus the new
pair. -/
theorem rfdict_insert_analysis (droot : RFNode) (dsens : Bool)
    (key k1 K : Key) (v : Int) (tr : Bool) (ok : Bool) (d2 : RFDict)
    (hrb : rfdict_rb_ok ⟨droot, dsens⟩ = true)
    (hnorm : dictKeysNormal ⟨droot, dsens⟩ = true)
    (htr : (if tr then translateKey key else some key) = some k1)
    (hK : (if dsens then k1 else foldKey k1) = K)
    (hins : rfdict_insert ⟨droot, dsens⟩ key v tr = some (ok, d2)) :
    d2.sensitive = dsens ∧
    (ok = false ↔ K ∈ treeKeys droot) ∧
    (ok = false → d2 = ⟨droot, dsens⟩) ∧
    (ok = true →
      (inorder d2.root).Perm ((K, v) :: inorder droot) ∧
      rfdict_rb_ok d2 = true ∧ dictKeysNormal d2 = true) := by
  simp only [rfdict_rb_ok, Bool.and_eq_true] at hrb
  obtain ⟨⟨⟨hbsts, hrootb⟩, hnrr_root⟩, hexu⟩ := hrb
  have hsens_ff : dsens = false → treeFoldFree droot = true := by
    intro hs
    simpa [dictKeysNormal, hs] using hnorm
  have hbstc : rfdict_bst_ok c_strcmp none none droot = true := by
    rw [bst_spec_eq none none droot hsens_ff
      (fun _ a h => by cases h) (fun _ a h => by cases h)] at hbsts
    exact hbsts
  have hrootblack : rfdict_isred droot = false := by
    simpa using hrootb
  have hbh_root : (blackHeight droot).isSome = true := (exit_uniform_iff droot).mp hexu
  have hKff : dsens = false → keyFoldFree K = true := by
    intro hs
    rw [hs] at hK
    simp only [Bool.false_eq_true, if_false] at hK
    rw [← hK]
    exact foldKey_foldFree k1
  unfold rfdict_insert at hins
  by_cases hlen : RFDICT_MAXKEY < key.length
  · rw [if_pos hlen] at hins
    cases hins
  · rw [if_neg hlen] at hins
    unfold rfdict_insert_go at hins
    rw [htr] at hins
    dsimp only at hins
    rw [hK] at hins
    rcases droot with _ | ⟨r0, k0, v0, l0, rt0⟩
    · dsimp only at hins
      injection hins with h2
      injection h2 with hok hd2
      subst hok
      subst hd2
      refine ⟨rfl, by simp [treeKeys_nil], fun h => absurd h (by decide), fun _ => ?_⟩
      refine ⟨by simp [inorder], ?_, ?_⟩
      · simp [rfdict_rb_ok, rfdict_bst_ok, boundLo, boundHi, rfdict_isred,
          rfdict_no_red_red, rfdict_exit_uniform, exitDepths]
      · rcases hds : dsens with _ | _
        · have hk2 : keyFoldFree K = true := hKff hds
          simp [dictKeysNormal, treeFoldFree, hk2]
        · simp [dictKeysNormal, hds]
    · dsimp only at hins
      rcases hdes : rfdict_descend (RFNode.node r0 k0 v0 l0 rt0) K [] with _ | path <;>
        rw [hdes] at hins <;> dsimp only at hins
      · -- duplicate: the key is already stored, nothing changes
        injection hins with h2
        injection h2 with hok hd2
        subst hok
        subst hd2
        have hmem : K ∈ treeKeys (RFNode.node r0 k0 v0 l0 rt0) :=
          descend_dup_mem _ K [] hdes
        exact ⟨rfl, ⟨fun _ => hmem, fun _ => rfl⟩, fun _ => rfl,
          fun h => absurd h (by decide)⟩
      · -- attachment of the red leaf, then the two fixup phases
        have hplug2 : plug path RFNode.nil = RFNode.node r0 k0 v0 l0 rt0 :=
          descend_plug _ K [] hdes
        have hpne : path ≠ [] := by
          intro hp
          rw [hp] at hplug2
          simp [plug] at hplug2
        have hbounds := descend_bounds _ K [] (by rfl) (by rfl) hdes
        have hbstP : rfdict_bst_ok c_strcmp none none (plug path RFNode.nil) = true := by
          rw [hplug2]
          exact hbstc
        have hctx := (bst_plug_iff path RFNode.nil).mp hbstP
        have hbst_leaf : rfdict_bst_ok c_strcmp none none
            (plug path (RFNode.node true K v RFNode.nil RFNode.nil)) = true := by
          refine (bst_plug_iff path _).mpr ⟨hctx.1, ?_⟩
          simp [rfdict_bst_ok, hbounds.1, hbounds.2]
        have hbh_nil : blackHeight (plug path RFNode.nil) = pathBH path 0 :=
          bh_plug path rfl
        have hpbh0 : (pathBH path 0).isSome = true := by
          rw [← hbh_nil, hplug2]
          exact hbh_root
        have hbh_leaf : (blackHeight
            (plug path (RFNode.node true K v RFNode.nil RFNode.nil))).isSome = true := by
          rw [bh_plug path (show blackHeight
            (RFNode.node true K v RFNode.nil RFNode.nil) = some 0 from rfl)]
          exact hpbh0
        have hnrrP : rfdict_no_red_red (plug path RFNode.nil) = true := by
          rw [hplug2]
          exact hnrr_root
        have hctxRR : ctxRR path := ((noRR_plug path RFNode.nil).mp hnrrP).1
        have hlbP : lastBlack path = true :=
          descend_lastBlack _ K [] hdes (fun _ => hrootblack) rfl
        have hfix : FixInv path (RFNode.node true K v RFNode.nil RFNode.nil) :=
          ⟨hbst_leaf, hbh_leaf, hctxRR, rfl, hlbP, fun hp => absurd hp hpne⟩
        obtain ⟨q, hAeq, hAfix, hAin, hAready⟩ := caseA_spec path _ hfix
        obtain ⟨p2, t2⟩ := q
        rw [hAeq] at hins
        dsimp only at hins
        obtain ⟨newRoot, hBeq, hBin, hBbst, hBred, hBnrr, hBbh⟩ :=
          caseB_spec p2 t2 hAfix hAready
        rw [hBeq] at hins
        dsimp only at hins
        injection hins with h2
        injection h2 with hok hd2
        subst hok
        subst hd2
        have hnotmem : K ∉ treeKeys (RFNode.node r0 k0 v0 l0 rt0) :=
          descend_attach_not_mem _ K [] none none hbstc hdes
        have hIn : inorder newRoot = ctxPre path ++ (K, v) :: ctxPost path := by
          rw [hBin, hAin, inorder_plug]
          simp [inorder]
        have hIn0 : inorder (RFNode.node r0 k0 v0 l0 rt0) =
            ctxPre path ++ ctxPost path := by
          rw [← hplug2, inorder_plug]
          simp [inorder]
        have hperm : (inorder newRoot).Perm
            ((K, v) :: inorder (RFNode.node r0 k0 v0 l0 rt0)) := by
          rw [hIn, hIn0]
          exact List.perm_middle
        have hkeysP : (treeKeys newRoot).Perm
            (K :: treeKeys (RFNode.node r0 k0 v0 l0 rt0)) := by
          simpa [treeKeys] using hperm.map Prod.fst
        have hff2 : dsens = false → treeFoldFree newRoot = true := by
          intro hs
          rw [treeFoldFree_iff]
          intro s hs2
          rcases List.mem_cons.mp (hkeysP.mem_iff.mp hs2) with h | h
          · rw [h]
            exact hKff hs
          · exact (treeFoldFree_iff _).mp (hsens_ff hs) s h
        refine ⟨rfl, ⟨fun h => absurd h (by decide), fun hm => absurd hm hnotmem⟩,
          fun h => absurd h (by decide), fun _ => ⟨hperm, ?_, ?_⟩⟩
        · simp only [rfdict_rb_ok, Bool.and_eq_true]
          refine ⟨⟨⟨?_, ?_⟩, ?_⟩, ?_⟩
          · rw [bst_spec_eq none none newRoot hff2
              (fun _ a h => by cases h) (fun _ a h => by cases h)]
            exact hBbst
          · simp [hBred]
          · exact hBnrr
          · exact (exit_uniform_iff newRoot).mpr hBbh
        · rcases hds : dsens with _ | _
          · simpa [dictKeysNormal] using hff2 hds
          · simp [dictKeysNormal, hds]

/-- On a well-formed dictionary, an `rfdict_insert` call without
translation and with a key of legal length never reaches any of the
fatal branches: it always returns a status. -/
theorem rfdict_insert_total (droot : RFNode) (dsens : Bool) (key : Key) (v : Int)
    (hrb : rfdict_rb_ok ⟨droot, dsens⟩ = true)
    (hnorm : dictKeysNormal ⟨droot, dsens⟩ = true)
    (hlen : key.length ≤ RFDICT_MAXKEY) :
    ∃ ok d2, rfdict_insert ⟨droot, dsens⟩ key v false = some (ok, d2) := by
  simp only [rfdict_rb_ok, Bool.and_eq_true] at hrb
  obtain ⟨⟨⟨hbsts, hrootb⟩, hnrr_root⟩, hexu⟩ := hrb
  have hsens_ff : dsens = false → treeFoldFree droot = true := by
    intro hs
    simpa [dictKeysNormal, hs] using hnorm
  have hbstc : rfdict_bst_ok c_strcmp none none droot = true := by
    rw [bst_spec_eq none none droot hsens_ff
      (fun _ a h => by cases h) (fun _ a h => by cases h)] at hbsts
    exact hbsts
  have hrootblack : rfdict_isred droot = false := by
    simpa using hrootb
  have hbh_root : (blackHeight droot).isSome = true := (exit_uniform_iff droot).mp hexu
  unfold rfdict_insert
  rw [if_neg (by omega)]
  unfold rfdict_insert_go
  rw [show (if false then translateKey key else some key) = some key from rfl]
  dsimp only
  generalize hK : (if dsens then key else foldKey key) = K
  rcases droot with _ | ⟨r0, k0, v0, l0, rt0⟩
  · exact ⟨true, _, rfl⟩
  · dsimp only
    rcases hdes : rfdict_descend (RFNode.node r0 k0 v0 l0 rt0) K [] with _ | path
    · exact ⟨false, ⟨RFNode.node r0 k0 v0 l0 rt0, dsens⟩, rfl⟩
    · have hplug2 : plug path RFNode.nil = RFNode.node r0 k0 v0 l0 rt0 :=
        descend_plug _ K [] hdes
      have hpne : path ≠ [] := by
        intro hp
        rw [hp] at hplug2
        simp [plug] at hplug2
      have hbounds := descend_bounds _ K [] (by rfl) (by rfl) hdes
      have hbstP : rfdict_bst_ok c_strcmp none none (plug path RFNode.nil) = true := by
        rw [hplug2]
        exact hbstc
      have hctx := (bst_plug_iff path RFNode.nil).mp hbstP
      have hbst_leaf : rfdict_bst_ok c_strcmp none none
          (plug path (RFNode.node true K v RFNode.nil RFNode.nil)) = true := by
        refine (bst_plug_iff path _).mpr ⟨hctx.1, ?_⟩
        simp [rfdict_bst_ok, hbounds.1, hbounds.2]
      have hbh_nil : blackHeight (plug path RFNode.nil) = pathBH path 0 :=
        bh_plug path rfl
      have hpbh0 : (pathBH path 0).isSome = true := by
        rw [← hbh_nil, hplug2]
        exact hbh_root
      have hbh_leaf : (blackHeight
          (plug path (RFNode.node true K v RFNode.nil RFNode.nil))).isSome = true := by
        rw [bh_plug path (show blackHeight
          (RFNode.node true K v RFNode.nil RFNode.nil) = some 0 from rfl)]
        exact hpbh0
      have hnrrP : rfdict_no_red_red (plug path RFNode.nil) = true := by
        rw [hplug2]
        exact hnrr_root
      have hctxRR : ctxRR path := ((noRR_plug path RFNode.nil).mp hnrrP).1
      have hlbP : lastBlack path = true :=
        descend_lastBlack _ K [] hdes (fun _ => hrootblack) rfl
      have hfix : FixInv path (RFNode.node true K v RFNode.nil RFNode.nil) :=
        ⟨hbst_leaf, hbh_leaf, hctxRR, rfl, hlbP, fun hp => absurd hp hpne⟩
      obtain ⟨q, hAeq, hAfix, hAin, hAready⟩ := caseA_spec path _ hfix
      obtain ⟨p2, t2⟩ := q
      obtain ⟨newRoot, hBeq, hBin, hBbst, hBred, hBnrr, hBbh⟩ :=
        caseB_spec p2 t2 hAfix hAready
      refine ⟨true, ⟨newRoot, dsens⟩, ?_⟩
      dsimp only
      rw [hAeq]
      dsimp only
      rw [hBeq]

/-- C1 (counterexample to the claim as frozen): a case-insensitive
dictionary whose tree satisfies the four listed invariants — but stores
the key "a", whose lowercase letter none of the four invariants rules
out — is carried by a completed successful `rfdict_insert` of "A" to a
tree that violates the first invariant (BST order under the configured
comparator: the rotated root "a" and its left child "A" compare equal
after folding). -/
theorem c1_counterexample :
    rfdict_rb_ok ⟨RFNode.node false [0x42] 0
        (RFNode.node true [0x61] 1 RFNode.nil RFNode.nil) RFNode.nil, false⟩ = true ∧
    rfdict_insert ⟨RFNode.node false [0x42] 0
        (RFNode.node true [0x61] 1 RFNode.nil RFNode.nil) RFNode.nil, false⟩
        [0x41] 2 false =
      some (true, ⟨RFNode.node false [0x61] 1
        (RFNode.node true [0x41] 2 RFNode.nil RFNode.nil)
        (RFNode.node true [0x42] 0 RFNode.nil RFNode.nil), false⟩) ∧
    rfdict_rb_ok ⟨RFNode.node false [0x61] 1
        (RFNode.node true [0x41] 2 RFNode.nil RFNode.nil)
        (RFNode.node true [0x42] 0 RFNode.nil RFNode.nil), false⟩ = false := by
  decide

/-- C1 (amended): for every dictionary satisfying the four red-black
invariants under the configured comparator AND whose stored keys are
already case-folded when the dictionary is case-insensitive (the
implicit invariant of C10, which every dictionary built by the library
itself satisfies), any completed successful insertion yields a tree
again satisfying all four invariants.  As frozen — without the
fold-free requirement — the claim is refuted by `c1_counterexample`. -/
theorem c1_insert_preserves_invariants (droot : RFNode) (dsens : Bool)
    (key : Key) (v : Int) (tr : Bool) (d2 : RFDict)
    (hrb : rfdict_rb_ok ⟨droot, dsens⟩ = true)
    (hnorm : dictKeysNormal ⟨droot, dsens⟩ = true)
    (hins : rfdict_insert ⟨droot, dsens⟩ key v tr = some (true, d2)) :
    rfdict_rb_ok d2 = true := by
  rcases htr : (if tr then translateKey key else some key) with _ | k1
  · exfalso
    unfold rfdict_insert rfdict_insert_go at hins
    rw [htr] at hins
    by_cases hlen : RFDICT_MAXKEY < key.length
    · rw [if_pos hlen] at hins
      cases hins
    · rw [if_neg hlen] at hins
      dsimp only at hins
      cases hins
  · exact ((rfdict_insert_analysis droot dsens key k1 _ v tr true d2
      hrb hnorm htr rfl hins).2.2.2 rfl).2.1

theorem c1_insert_preserves_invariants_witness :
    rfdict_rb_ok ⟨RFNode.node false [0x42] 0
      (RFNode.node true [0x41] 2 RFNode.nil RFNode.nil) RFNode.nil, false⟩ = true :=
  c1_insert_preserves_invariants (RFNode.node false [0x42] 0 RFNode.nil RFNode.nil)
    false [0x41] 2 false
    ⟨RFNode.node false [0x42] 0
      (RFNode.node true [0x41] 2 RFNode.nil RFNode.nil) RFNode.nil, false⟩
    (by decide) (by decide) (by decide)

/-- C2: for every well-formed dictionary (red-black invariants plus
fold-free stored keys) and every key of valid length, `rfdict_insert`
returns a status (no abort): success exactly when no stored key
compares equal to the new key under the configured comparator; on
success the tree gains exactly one node; on duplicate failure the
dictionary is returned completely unmodified (the rejected node never
enters the tree, which is the embedding of the C code freeing it). -/
theorem c2_insert_success_iff (droot : RFNode) (dsens : Bool) (key : Key) (v : Int)
    (hrb : rfdict_rb_ok ⟨droot, dsens⟩ = true)
    (hnorm : dictKeysNormal ⟨droot, dsens⟩ = true)
    (hlen : key.length ≤ RFDICT_MAXKEY) :
    ∃ ok d2, rfdict_insert ⟨droot, dsens⟩ key v false = some (ok, d2) ∧
      (ok = true ↔ ∀ s ∈ treeKeys droot, rfdict_cmp_spec dsens key s ≠ 0) ∧
      (ok = true → d2.root.size = droot.size + 1) ∧
      (ok = false → d2 = ⟨droot, dsens⟩) := by
  obtain ⟨ok, d2, hins⟩ := rfdict_insert_total droot dsens key v hrb hnorm hlen
  obtain ⟨hsens, hiff, hunch, hsucc⟩ :=
    rfdict_insert_analysis droot dsens key key _ v false ok d2 hrb hnorm rfl rfl hins
  have hsens_ff : dsens = false → treeFoldFree droot = true := by
    intro hs
    simpa [dictKeysNormal, hs] using hnorm
  have hcmp0 : ∀ s ∈ treeKeys droot,
      (rfdict_cmp_spec dsens key s = 0 ↔ (if dsens then key else foldKey key) = s) := by
    intro s hs
    rcases dsens with _ | _
    · have hsff : keyFoldFree s = true := (treeFoldFree_iff droot).mp (hsens_ff rfl) s hs
      rw [show rfdict_cmp_spec false key s = c_strcmp (foldKey key) (foldKey s) from rfl,
        foldKey_id hsff,
        show (if (false : Bool) then key else foldKey key) = foldKey key from rfl]
      exact c_strcmp_eq_zero_iff _ _
    · exact c_strcmp_eq_zero_iff key s
  refine ⟨ok, d2, hins, ?_, ?_, hunch⟩
  · constructor
    · intro hok s hs hc
      have h1 : (if dsens then key else foldKey key) = s := (hcmp0 s hs).mp hc
      have h2 : ok = false := hiff.mpr (by rw [h1]; exact hs)
      rw [hok] at h2
      cases h2
    · intro hall
      rcases ok with _ | _
      · have hmem := hiff.mp rfl
        exact absurd ((hcmp0 _ hmem).mpr rfl) (hall _ hmem)
      · rfl
  · intro hok
    have hperm := (hsucc hok).1
    have hlen2 := hperm.length_eq
    rw [size_eq_inorder_length, size_eq_inorder_length, hlen2]
    simp

theorem c2_insert_success_iff_witness : ∃ ok d2,
    rfdict_insert ⟨RFNode.node false [0x41] 5 RFNode.nil RFNode.nil, true⟩
        [0x41] 9 false = some (ok, d2) ∧
    (ok = true ↔ ∀ s ∈ treeKeys (RFNode.node false [0x41] 5 RFNode.nil RFNode.nil),
      rfdict_cmp_spec true [0x41] s ≠ 0) ∧
    (ok = true →
      d2.root.size = (RFNode.node false [0x41] 5 RFNode.nil RFNode.nil).size + 1) ∧
    (ok = false →
      d2 = ⟨RFNode.node false [0x41] 5 RFNode.nil RFNode.nil, true⟩) :=
  c2_insert_success_iff (RFNode.node false [0x41] 5 RFNode.nil RFNode.nil) true
    [0x41] 9 (by decide) (by decide) (by decide)

/-- C10: insertion folds the key of a case-insensitive dictionary
before placing the node, so the invariant "no stored key contains a
lowercase ASCII letter" holds for the result of every insertion on a
dictionary that already satisfies it (the other operations do not
modify the tree); the insertion-time descent and duplicate check
(`rfdict_descend`) consequently compare the already-folded key by exact
byte comparison (`c_strcmp`), as the embedding of lines 772-801 shows
directly. -/
theorem c10_fold_free_invariant (droot : RFNode) (dsens : Bool)
    (key : Key) (v : Int) (tr : Bool) (ok : Bool) (d2 : RFDict)
    (hrb : rfdict_rb_ok ⟨droot, dsens⟩ = true)
    (hnorm : dictKeysNormal ⟨droot, dsens⟩ = true)
    (hins : rfdict_insert ⟨droot, dsens⟩ key v tr = some (ok, d2)) :
    dictKeysNormal d2 = true ∧
    (d2.sensitive = false → treeFoldFree d2.root = true) := by
  rcases htr : (if tr then translateKey key else some key) with _ | k1
  · exfalso
    unfold rfdict_insert rfdict_insert_go at hins
    rw [htr] at hins
    by_cases hlen : RFDICT_MAXKEY < key.length
    · rw [if_pos hlen] at hins
      cases hins
    · rw [if_neg hlen] at hins
      dsimp only at hins
      cases hins
  · obtain ⟨hsens, hiff, hunch, hsucc⟩ :=
      rfdict_insert_analysis droot dsens key k1 _ v tr ok d2 hrb hnorm htr rfl hins
    have hgoal1 : dictKeysNormal d2 = true := by
      rcases ok with _ | _
      · rw [hunch rfl]
        exact hnorm
      · exact (hsucc rfl).2.2
    refine ⟨hgoal1, fun hs => ?_⟩
    simpa [dictKeysNormal, hs] using hgoal1

theorem c10_fold_free_invariant_witness :
    dictKeysNormal ⟨RFNode.node false [0x41, 0x42] 3 RFNode.nil RFNode.nil, false⟩ = true ∧
    (false = false →
      treeFoldFree (RFNode.node false [0x41, 0x42] 3 RFNode.nil RFNode.nil) = true) :=
  c10_fold_free_invariant RFNode.nil false [0x61, 0x42] 3 false true
    ⟨RFNode.node false [0x41, 0x42] 3 RFNode.nil RFNode.nil, false⟩
    (by decide) (by decide) (by decide)
